import Mathlib

/-! Bounded channel of `lib/channel.c`.

A shallow embedding of the `THChannel` ring buffer and of the Lua-callable
functions `channel_new`, `channel_fromid`, `channel_free`, `channel_retain`,
`channel_send`, `channel_receive` and `channel_close`.

The functions are modelled as they execute under the channel mutex: one call
of `channel_send` / `channel_receive` is one pass through the `while` loop of
the C function, which either returns or reaches `THCondition_wait` (result
`wait`, state unchanged; the C code re-evaluates the loop condition on the
state it finds when it is woken).  The `Sys` layer adds the threads suspended
on the two condition variables and the signals and broadcasts that wake them.
-/

namespace Channel

/-- A non-NULL `THCharStorage*`, identified by its address. -/
abbrev Storage := Nat

/-- Calls made on payloads through the TH storage interface. -/
inductive StorageCall where
  | retain (s : Storage)
  | free (s : Storage)
deriving DecidableEq, Repr

/-- Number of values of a C `unsigned int` (32 bits). -/
def UINT_MOD : Nat := 4294967296

/-- Largest value of a C `int` (32 bits). -/
def INT_MAX : Int := 2147483647

/-- The fields of `struct THChannel_` that carry data.  `args` is the array
allocated by `calloc(size, sizeof(THCharStorage*))`, a NULL entry being
`none`; `isempty`, `isfull` and `isclosed` are C ints that only ever hold 0 or
1; `refcount` is the value of the 32-bit `int refcount`, which the atomic
operations keep in `[INT_MIN, INT_MAX]`.  The mutex and the two condition
variables carry no data. -/
structure THChannel where
  args : List (Option Storage)
  head : Nat
  tail : Nat
  size : Nat
  isempty : Bool
  isfull : Bool
  isclosed : Bool
  refcount : Int
deriving DecidableEq, Repr

/-- Outcome of the allocations attempted by `channel_new`: `true` where the
call returned a non-NULL pointer (`luaTHRD_pushudata`: a non-zero value). -/
structure Alloc where
  channel : Bool
  mutex : Bool
  notfull : Bool
  notempty : Bool
  args : Bool
  udata : Bool
deriving DecidableEq, Repr

/-- All allocations succeed. -/
def Alloc.ok : Alloc := ⟨true, true, true, true, true, true⟩

/-- The two `luaL_error` messages of `channel_new`. -/
inductive NewError where
  | invalid_size
  | out_of_memory
deriving DecidableEq, Repr

/-- `channel_new`, on the value of the C variable `int size`. -/
def channel_new (size : Int) (a : Alloc) : Except NewError THChannel :=
  if size < 0 then .error .invalid_size
  else if !a.channel then .error .out_of_memory
  else
    let channel : THChannel :=
      { args := List.replicate size.toNat none
        head := 0
        tail := 0
        size := size.toNat % UINT_MOD
        isempty := true
        isfull := false
        isclosed := false
        refcount := 1 }
    if !a.mutex || !a.notfull || !a.notempty || !a.args then .error .out_of_memory
    else if !a.udata then .error .out_of_memory
    else .ok channel

/-- The value a 32-bit C `int` holds after an atomic addition whose exact
result is `n`: the two's complement wrap-around of `n` into
`[INT_MIN, INT_MAX]`. -/
def int_wrap (n : Int) : Int := (n + 2147483648) % 4294967296 - 2147483648

/-- Modelled from the spec: `THAtomicIncrementRef` of the TH library is not in
the source tree; it "increments `refcount` atomically".  The counter is the
`int refcount` field, so the sum wraps around at 32 bits. -/
def THAtomicIncrementRef (a : Int) : Int := int_wrap (a + 1)

/-- Modelled from the spec: `THAtomicDecrementRef` of the TH library is not in
the source tree; it "atomically decrements `refcount`" and its result is true
exactly "if it reaches zero".  The counter is the `int refcount` field, so
the difference wraps around at 32 bits. -/
def THAtomicDecrementRef (a : Int) : Int × Bool :=
  (int_wrap (a - 1), int_wrap (a - 1) == 0)

/-- `channel_fromid` on the channel the id points to; `pushed` is the result
of `luaTHRD_pushudata`.  The error is "channel fromid out of memory". -/
def channel_fromid (channel : THChannel) (pushed : Bool) : Except NewError THChannel :=
  if pushed then .ok { channel with refcount := THAtomicIncrementRef channel.refcount }
  else .error .out_of_memory

/-- Result of `channel_free`: the channel lives on, or it was torn down and
`calls` lists the `THCharStorage_free` calls of the loop over `args`. -/
inductive FreeResult where
  | alive (channel : THChannel)
  | torndown (calls : List StorageCall)
deriving DecidableEq, Repr

/-- `channel_free`. -/
def channel_free (channel : THChannel) : FreeResult :=
  let r := THAtomicDecrementRef channel.refcount
  if r.2 then
    .torndown ((List.range channel.size).filterMap fun i =>
      (channel.args.getD i none).map StorageCall.free)
  else .alive { channel with refcount := r.1 }

/-- `channel_retain`. -/
def channel_retain (channel : THChannel) : THChannel :=
  { channel with refcount := THAtomicIncrementRef channel.refcount }

/-- What `channel_send` does for its caller: `pushed b` is
`lua_pushboolean(L, b); return 1`, `closed` is the `luaL_error`
"threads: channel is closed", `wait` is `THCondition_wait` on `notfull`. -/
inductive SendResult where
  | pushed (sent : Bool)
  | closed
  | wait
deriving DecidableEq, Repr

/-- What `channel_receive` does for its caller: `received p` pushes the
storage read from the head slot and `true`, `none_false` pushes nil and
`false`, `wait` is `THCondition_wait` on `notempty`. -/
inductive ReceiveResult where
  | received (payload : Option Storage)
  | none_false
  | wait
deriving DecidableEq, Repr

/-- Result, channel state and payload calls of one operation. -/
structure Out (ρ : Type) where
  result : ρ
  channel : THChannel
  calls : List StorageCall
deriving DecidableEq, Repr

/-- `channel_send`. -/
def channel_send (channel : THChannel) (storage : Storage) (immediate : Bool) :
    Out SendResult :=
  if channel.isfull && !channel.isclosed then
    if immediate then ⟨.pushed false, channel, []⟩
    else ⟨.wait, channel, []⟩
  else if channel.isclosed then ⟨.closed, channel, []⟩
  else
    let args := channel.args.set channel.tail (some storage)
    let tail := (channel.tail + 1) % UINT_MOD
    let tail := if tail ≥ channel.size then 0 else tail
    ⟨.pushed true,
     { channel with
        args := args
        tail := tail
        isfull := tail == channel.head
        isempty := false },
     [.retain storage]⟩

/-- `channel_receive`. -/
def channel_receive (channel : THChannel) (immediate : Bool) : Out ReceiveResult :=
  if channel.isempty then
    if immediate || channel.isclosed then ⟨.none_false, channel, []⟩
    else ⟨.wait, channel, []⟩
  else
    let storage := channel.args.getD channel.head none
    let args := channel.args.set channel.head none
    let head := (channel.head + 1) % UINT_MOD
    let head := if head ≥ channel.size then 0 else head
    ⟨.received storage,
     { channel with
        args := args
        head := head
        isfull := false
        isempty := channel.tail == head },
     []⟩

/-- `channel_close`. -/
def channel_close (channel : THChannel) : THChannel :=
  { channel with isclosed := true }

/-! ## Sequences of operations on one channel -/

/-- A call of one of the channel functions, with its arguments. -/
inductive Op where
  | send (storage : Storage) (immediate : Bool)
  | receive (immediate : Bool)
  | close
  | retain
  | fromid (pushed : Bool)
  | free
deriving DecidableEq, Repr

/-- What the call returned. -/
inductive Res where
  | send (r : SendResult)
  | receive (r : ReceiveResult)
  | unit
  | fromid (handle : Bool)
  | free (teardown : Bool)
deriving DecidableEq, Repr

/-- One executed call: the operation, its result and the payload calls. -/
structure Event where
  op : Op
  res : Res
  calls : List StorageCall
deriving DecidableEq, Repr

/-- One call on a live channel; the state is `none` once the channel has been
torn down. -/
def step (channel : THChannel) : Op → Event × Option THChannel
  | .send storage immediate =>
    let o := channel_send channel storage immediate
    (⟨.send storage immediate, .send o.result, o.calls⟩, some o.channel)
  | .receive immediate =>
    let o := channel_receive channel immediate
    (⟨.receive immediate, .receive o.result, o.calls⟩, some o.channel)
  | .close => (⟨.close, .unit, []⟩, some (channel_close channel))
  | .retain => (⟨.retain, .unit, []⟩, some (channel_retain channel))
  | .fromid pushed =>
    match channel_fromid channel pushed with
    | .ok c => (⟨.fromid pushed, .fromid true, []⟩, some c)
    | .error _ => (⟨.fromid pushed, .fromid false, []⟩, some channel)
  | .free =>
    match channel_free channel with
    | .alive c => (⟨.free, .free false, []⟩, some c)
    | .torndown calls => (⟨.free, .free true, calls⟩, none)

/-- Runs the calls in order from a live channel; nothing is executed after a
teardown.  Returns the executed events and the final state. -/
def run (channel : THChannel) : List Op → List Event × Option THChannel
  | [] => ([], some channel)
  | op :: ops =>
    match step channel op with
    | (e, none) => ([e], none)
    | (e, some c) => (e :: (run c ops).1, (run c ops).2)

/-- The payload an event enqueued: that of a send that returned `true`. -/
def Event.sent : Event → Option Storage
  | ⟨.send s _, .send (.pushed true), _⟩ => some s
  | _ => none

/-- The slot content an event dequeued: that of a receive that returned
`true`. -/
def Event.received : Event → Option (Option Storage)
  | ⟨_, .receive (.received p), _⟩ => some p
  | _ => none

/-- Payloads accepted by the successful sends of a trace, in order. -/
def sentPayloads (trace : List Event) : List Storage :=
  trace.filterMap Event.sent

/-- Slot contents returned by the successful receives of a trace, in order. -/
def receivedPayloads (trace : List Event) : List (Option Storage) :=
  trace.filterMap Event.received

/-- Number of payloads in the ring, from the flags and the two indices. -/
def count (channel : THChannel) : Nat :=
  if channel.isfull then channel.size
  else if channel.head ≤ channel.tail then channel.tail - channel.head
  else channel.tail + channel.size - channel.head

/-- Index of the `i`-th queued slot, counted from `head` around the ring. -/
def slot (channel : THChannel) (i : Nat) : Nat :=
  if channel.head + i < channel.size then channel.head + i
  else channel.head + i - channel.size

/-- Contents of the queued slots, oldest first. -/
def queued (channel : THChannel) : List (Option Storage) :=
  (List.range (count channel)).map fun i => channel.args.getD (slot channel i) none

/-! ## The count-based queue of the design notes -/

/-- The alternative named by the spec: a bounded queue that "track[s] a single
`count` integer and derive[s] both flags" from it.  Its operations follow the
send / receive / close protocols of the spec, with `isEmpty`, `isFull` and the
write index computed from `head` and `count`. -/
structure CountChannel where
  slots : List (Option Storage)
  head : Nat
  count : Nat
  capacity : Nat
  isClosed : Bool
deriving DecidableEq, Repr

/-- Derived flag: nothing is queued. -/
def CountChannel.isEmpty (m : CountChannel) : Bool := m.count == 0

/-- Derived flag: `capacity` payloads are queued. -/
def CountChannel.isFull (m : CountChannel) : Bool := m.count == m.capacity

/-- Derived write index. -/
def CountChannel.tail (m : CountChannel) : Nat := (m.head + m.count) % m.capacity

/-- A new count-based queue: all slots empty, nothing queued, open. -/
def CountChannel.create (capacity : Nat) : CountChannel :=
  ⟨List.replicate capacity none, 0, 0, capacity, false⟩

/-- Send on the count-based queue (spec 4.2, steps 1 to 3). -/
def CountChannel.send (m : CountChannel) (payload : Storage) (immediate : Bool) :
    SendResult × CountChannel :=
  if m.isFull && !m.isClosed then
    if immediate then (.pushed false, m) else (.wait, m)
  else if m.isClosed then (.closed, m)
  else (.pushed true,
        { m with slots := m.slots.set m.tail (some payload), count := m.count + 1 })

/-- Receive on the count-based queue (spec 4.3, steps 1 to 3). -/
def CountChannel.receive (m : CountChannel) (immediate : Bool) :
    ReceiveResult × CountChannel :=
  if m.isEmpty then
    if immediate || m.isClosed then (.none_false, m) else (.wait, m)
  else (.received (m.slots.getD m.head none),
        { m with
          slots := m.slots.set m.head none
          head := (m.head + 1) % m.capacity
          count := m.count - 1 })

/-- Close on the count-based queue (spec 4.4). -/
def CountChannel.close (m : CountChannel) : CountChannel :=
  { m with isClosed := true }

/-- The count-based queue a channel state stands for. -/
def toCount (channel : THChannel) : CountChannel :=
  ⟨channel.args, channel.head, count channel, channel.size, channel.isclosed⟩

/-- The two condition variables of a channel. -/
inductive Cond where
  | notfull
  | notempty
deriving DecidableEq, Repr

/-- A thread suspended in `THCondition_wait`: inside `channel_send` with its
payload, or inside `channel_receive`.  Such a call has `immediate` false. -/
inductive Waiter where
  | sender (storage : Storage)
  | receiver
deriving DecidableEq, Repr

/-- The condition the thread waits on: `notfull` in `channel_send`,
`notempty` in `channel_receive`. -/
def Waiter.cond : Waiter → Cond
  | .sender _ => .notfull
  | .receiver => .notempty

/-- The `THCondition_broadcast` calls of `channel_close`, made after the
mutex is unlocked. -/
def channel_close_broadcasts : List Cond := [.notfull, .notempty]

/-- A channel with the threads suspended on its condition variables:
`waiting` are inside `THCondition_wait`, `ready` have been woken and have yet
to take the mutex again and test the condition of their loop. -/
structure Sys where
  channel : THChannel
  waiting : List Waiter
  ready : List Waiter
deriving DecidableEq, Repr

/-- Modelled from the spec: `THCondition_wait` of the TH library is not in the
source tree; the calling thread "block[s] on the ... condition until woken",
releasing the mutex while blocked. -/
def THCondition_wait (w : Waiter) (s : Sys) : Sys :=
  { s with waiting := s.waiting ++ [w] }

/-- Modelled from the spec: `THCondition_signal` of the TH library is not in
the source tree; it "signal[s] one waiter" on its condition.  Which waiter is
unspecified; the model takes the one that has waited longest. -/
def THCondition_signal (c : Cond) (s : Sys) : Sys :=
  match s.waiting.find? fun w => w.cond = c with
  | none => s
  | some w => { s with waiting := s.waiting.erase w, ready := s.ready ++ [w] }

/-- Modelled from the spec: `THCondition_broadcast` of the TH library is not
in the source tree; it "wakes all waiters, not just one" on its condition. -/
def THCondition_broadcast (c : Cond) (s : Sys) : Sys :=
  { s with
    waiting := s.waiting.filter fun w => w.cond ≠ c
    ready := s.ready ++ s.waiting.filter fun w => w.cond = c }

/-- The whole of `channel_send` as a running thread executes it: the pass of
`channel_send` under the mutex, then `THCondition_wait` on `notfull` where the
pass reached it, or `THCondition_signal` on `notempty` after a store. -/
def sys_send (s : Sys) (storage : Storage) (immediate : Bool) : Event × Sys :=
  let o := channel_send s.channel storage immediate
  let s' := { s with channel := o.channel }
  (⟨.send storage immediate, .send o.result, o.calls⟩,
   match o.result with
   | .wait => THCondition_wait (.sender storage) s'
   | .pushed true => THCondition_signal .notempty s'
   | _ => s')

/-- The whole of `channel_receive` as a running thread executes it: the pass
under the mutex, then `THCondition_wait` on `notempty` where the pass reached
it, or `THCondition_signal` on `notfull` after a payload was taken. -/
def sys_receive (s : Sys) (immediate : Bool) : Event × Sys :=
  let o := channel_receive s.channel immediate
  let s' := { s with channel := o.channel }
  (⟨.receive immediate, .receive o.result, o.calls⟩,
   match o.result with
   | .wait => THCondition_wait .receiver s'
   | .received _ => THCondition_signal .notfull s'
   | _ => s')

/-- The whole of `channel_close`: `isclosed` is set under the mutex, then the
two broadcasts are made. -/
def sys_close (s : Sys) : Event × Sys :=
  (⟨.close, .unit, []⟩,
   channel_close_broadcasts.foldl (fun t c => THCondition_broadcast c t)
     { s with channel := channel_close s.channel })

/-- A woken thread runs: `THCondition_wait` returns with the mutex held and
the `while` condition of its call is tested on the state it finds, which is
one more pass of that call (a thread that waited has `immediate` false). -/
def sys_resume (s : Sys) (w : Waiter) : Event × Sys :=
  match w with
  | .sender storage => sys_send { s with ready := s.ready.erase w } storage false
  | .receiver => sys_receive { s with ready := s.ready.erase w } false

/-- Flag consistency of a channel state. -/
def FlagInv (channel : THChannel) : Prop :=
  (channel.isempty = true → channel.head = channel.tail) ∧
  (channel.isfull = true → channel.head = channel.tail) ∧
  ¬ (channel.isempty = true ∧ channel.isfull = true) ∧
  (channel.head = channel.tail → (channel.isempty = true ∨ channel.isfull = true)) ∧
  (channel.head ≠ channel.tail → channel.isempty = false ∧ channel.isfull = false)

/-- Ring invariant of a channel of capacity `C`. -/
structure Inv (C : Nat) (channel : THChannel) : Prop where
  size_eq : channel.size = C
  len : channel.args.length = C
  pos : 0 < C
  bound : C < UINT_MOD
  head_lt : channel.head < C
  tail_lt : channel.tail < C
  flags : FlagInv channel

/-- The non-NULL slots are exactly the queued ones: every queued slot holds
a payload, and every slot of the array that is not queued is NULL. -/
def SlotInv (channel : THChannel) : Prop :=
  (∀ j, j < count channel → channel.args.getD (slot channel j) none ≠ none) ∧
  (∀ i, i < channel.size → (∀ j, j < count channel → slot channel j ≠ i) →
    channel.args.getD i none = none)

/-! ## The ring invariant and the queue it represents -/

theorem send_state (C : Nat) (ch : THChannel) (h : Inv C ch) (s : Storage) (imm : Bool)
    (hf : ch.isfull = false) (hc : ch.isclosed = false) :
    channel_send ch s imm =
      ⟨.pushed true,
       { ch with
          args := ch.args.set ch.tail (some s)
          tail := if ch.tail + 1 < C then ch.tail + 1 else 0
          isfull := (if ch.tail + 1 < C then ch.tail + 1 else 0) == ch.head
          isempty := false },
       [.retain s]⟩ := by
  obtain ⟨h1, h2, h3, h4, h5, h6, h7⟩ := h
  have e : (if (ch.tail + 1) % UINT_MOD ≥ ch.size then 0 else (ch.tail + 1) % UINT_MOD)
      = (if ch.tail + 1 < C then ch.tail + 1 else 0) := by
    simp only [UINT_MOD] at *
    split <;> split <;> omega
  simp only [channel_send, hf, hc, e]
  simp

theorem receive_state (C : Nat) (ch : THChannel) (h : Inv C ch) (imm : Bool)
    (he : ch.isempty = false) :
    channel_receive ch imm =
      ⟨.received (ch.args.getD ch.head none),
       { ch with
          args := ch.args.set ch.head none
          head := if ch.head + 1 < C then ch.head + 1 else 0
          isfull := false
          isempty := ch.tail == (if ch.head + 1 < C then ch.head + 1 else 0) },
       []⟩ := by
  obtain ⟨h1, h2, h3, h4, h5, h6, h7⟩ := h
  have e : (if (ch.head + 1) % UINT_MOD ≥ ch.size then 0 else (ch.head + 1) % UINT_MOD)
      = (if ch.head + 1 < C then ch.head + 1 else 0) := by
    simp only [UINT_MOD] at *
    split <;> split <;> omega
  simp only [channel_receive, he, e]
  simp

theorem getD_set_ne {α : Type} (l : List α) (i j : Nat) (a d : α) (h : i ≠ j) :
    (l.set i a).getD j d = l.getD j d := by
  simp [List.getElem?_set_ne h]

theorem getD_set_self {α : Type} (l : List α) (i : Nat) (a d : α) (h : i < l.length) :
    (l.set i a).getD i d = a := by
  simp [List.getElem?_set_self h]

theorem send_inv (C : Nat) (ch : THChannel) (h : Inv C ch) (s : Storage) (imm : Bool) :
    Inv C (channel_send ch s imm).channel := by
  by_cases hf : ch.isfull = true
  · by_cases hc : ch.isclosed = true
    · simpa [channel_send, hf, hc] using h
    · cases imm <;> simpa [channel_send, hf, hc] using h
  · by_cases hc : ch.isclosed = true
    · simpa [channel_send, hf, hc] using h
    · simp only [Bool.not_eq_true] at hf hc
      rw [send_state C ch h s imm hf hc]
      obtain ⟨h1, h2, h3, h4, h5, h6, h7⟩ := h
      refine ⟨h1, by simpa using h2, h3, h4, h5, ?_, ?_⟩
      · show (if ch.tail + 1 < C then ch.tail + 1 else 0) < C
        split <;> omega
      · simp only [FlagInv, beq_iff_eq]
        refine ⟨?_, ?_, ?_, ?_, ?_⟩ <;> (try simp) <;> omega

theorem receive_inv (C : Nat) (ch : THChannel) (h : Inv C ch) (imm : Bool) :
    Inv C (channel_receive ch imm).channel := by
  by_cases he : ch.isempty = true
  · by_cases hc : ch.isclosed = true
    · simpa [channel_receive, he, hc] using h
    · cases imm <;> simpa [channel_receive, he, hc] using h
  · simp only [Bool.not_eq_true] at he
    rw [receive_state C ch h imm he]
    obtain ⟨h1, h2, h3, h4, h5, h6, h7⟩ := h
    refine ⟨h1, by simpa using h2, h3, h4, ?_, h6, ?_⟩
    · show (if ch.head + 1 < C then ch.head + 1 else 0) < C
      split <;> omega
    · simp only [FlagInv, beq_iff_eq]
      refine ⟨?_, ?_, ?_, ?_, ?_⟩ <;> (try simp) <;> omega

theorem count_le (C : Nat) (ch : THChannel) (h : Inv C ch) : count ch ≤ C := by
  obtain ⟨h1, h2, h3, h4, h5, h6, h7⟩ := h
  unfold count
  split
  · omega
  · split <;> omega

theorem count_eq_zero_iff (C : Nat) (ch : THChannel) (h : Inv C ch) :
    count ch = 0 ↔ ch.isempty = true := by
  obtain ⟨h1, h2, h3, h4, h5, h6, f1, f2, f3, f4, f5⟩ := h
  unfold count
  constructor
  · intro e
    split at e
    · omega
    · rename_i hf
      have ht : ch.head = ch.tail := by split at e <;> omega
      rcases f4 ht with h | h
      · exact h
      · exact absurd h hf
  · intro e
    have ht := f1 e
    have hf : ¬ ch.isfull = true := fun hf => f3 ⟨e, hf⟩
    simp [hf, ht]

theorem count_eq_size_iff (C : Nat) (ch : THChannel) (h : Inv C ch) :
    count ch = C ↔ ch.isfull = true := by
  obtain ⟨h1, h2, h3, h4, h5, h6, f1, f2, f3, f4, f5⟩ := h
  unfold count
  constructor
  · intro e
    split at e
    · assumption
    · split at e <;> omega
  · intro e
    simp [e, h1]

theorem send_count (C : Nat) (ch : THChannel) (h : Inv C ch) (s : Storage) (imm : Bool)
    (hf : ch.isfull = false) (hc : ch.isclosed = false) :
    count (channel_send ch s imm).channel = count ch + 1 := by
  rw [send_state C ch h s imm hf hc]
  obtain ⟨h1, h2, h3, h4, h5, h6, f1, f2, f3, f4, f5⟩ := h
  simp only [count, hf, beq_iff_eq, h1]
  simp only [Bool.false_eq_true, if_false]
  split <;> split <;> (try split) <;> (try split) <;> omega

theorem send_queued (C : Nat) (ch : THChannel) (h : Inv C ch) (s : Storage) (imm : Bool)
    (hf : ch.isfull = false) (hc : ch.isclosed = false) :
    queued (channel_send ch s imm).channel = queued ch ++ [some s] := by
  unfold queued
  rw [send_count C ch h s imm hf hc, List.range_succ, List.map_append]
  rw [send_state C ch h s imm hf hc]
  obtain ⟨h1, h2, h3, h4, h5, h6, f1, f2, f3, f4, f5⟩ := h
  have hcnt : count ch = if ch.head ≤ ch.tail then ch.tail - ch.head
      else ch.tail + C - ch.head := by simp [count, hf, h1]
  congr 1
  · apply List.map_congr_left
    intro i hi
    rw [List.mem_range] at hi
    simp only [slot, h1]
    apply getD_set_ne
    rw [hcnt] at hi
    split at hi <;> split <;> omega
  · simp only [List.map_cons, List.map_nil, slot, h1]
    have e : (if ch.head + count ch < C then ch.head + count ch
        else ch.head + count ch - C) = ch.tail := by
      rw [hcnt]; split <;> split <;> omega
    rw [e, getD_set_self _ _ _ _ (by omega)]

theorem receive_count (C : Nat) (ch : THChannel) (h : Inv C ch) (imm : Bool)
    (he : ch.isempty = false) :
    count ch = count (channel_receive ch imm).channel + 1 := by
  rw [receive_state C ch h imm he]
  obtain ⟨h1, h2, h3, h4, h5, h6, f1, f2, f3, f4, f5⟩ := h
  simp only [count, h1]
  simp only [Bool.false_eq_true, if_false]
  have hne : ch.isfull = false → ch.head ≠ ch.tail := by
    intro hf e
    rcases f4 e with h | h
    · simp [he] at h
    · simp [hf] at h
  by_cases hf : ch.isfull = true
  · have := f2 hf
    simp only [hf, if_true]
    split <;> split <;> omega
  · simp only [Bool.not_eq_true] at hf
    have := hne hf
    simp only [hf, Bool.false_eq_true, if_false]
    split <;> split <;> (try split) <;> omega

theorem receive_queued (C : Nat) (ch : THChannel) (h : Inv C ch) (imm : Bool)
    (he : ch.isempty = false) :
    queued ch = ch.args.getD ch.head none :: queued (channel_receive ch imm).channel := by
  have hc := receive_count C ch h imm he
  have hle := count_le C ch h
  unfold queued
  rw [hc, List.range_succ_eq_map, List.map_cons, List.map_map]
  rw [receive_state C ch h imm he] at hc ⊢
  obtain ⟨h1, h2, h3, h4, h5, h6, f1, f2, f3, f4, f5⟩ := h
  congr 1
  · simp only [slot, h1]
    rw [if_pos (by omega)]
    rfl
  · apply List.map_congr_left
    intro i hi
    rw [List.mem_range] at hi
    simp only [Function.comp, slot, h1, Nat.succ_eq_add_one]
    have e : (if ch.head + (i + 1) < C then ch.head + (i + 1) else ch.head + (i + 1) - C)
        = (if (if ch.head + 1 < C then ch.head + 1 else 0) + i < C
            then (if ch.head + 1 < C then ch.head + 1 else 0) + i
            else (if ch.head + 1 < C then ch.head + 1 else 0) + i - C) := by
      split <;> split <;> (try split) <;> omega
    rw [← e]
    symm
    apply getD_set_ne
    split <;> omega

/-- Two states with the same ring fields satisfy the same invariant. -/
theorem inv_congr (C : Nat) (ch ch' : THChannel) (h : Inv C ch)
    (e1 : ch'.args = ch.args) (e2 : ch'.head = ch.head) (e3 : ch'.tail = ch.tail)
    (e4 : ch'.size = ch.size) (e5 : ch'.isempty = ch.isempty) (e6 : ch'.isfull = ch.isfull) :
    Inv C ch' := by
  obtain ⟨h1, h2, h3, h4, h5, h6, h7⟩ := h
  refine ⟨by omega, by rw [e1]; exact h2, h3, h4, by omega, by omega, ?_⟩
  simpa only [FlagInv, e2, e3, e5, e6] using h7

theorem queued_congr (ch ch' : THChannel)
    (e1 : ch'.args = ch.args) (e2 : ch'.head = ch.head) (e3 : ch'.tail = ch.tail)
    (e4 : ch'.size = ch.size) (e6 : ch'.isfull = ch.isfull) :
    queued ch' = queued ch := by
  simp only [queued, count, slot, e1, e2, e3, e4, e6]

theorem send_fail_state (ch : THChannel) (s : Storage) (imm : Bool)
    (h : ch.isfull = true ∨ ch.isclosed = true) :
    (channel_send ch s imm).channel = ch ∧
      (channel_send ch s imm).result ≠ .pushed true := by
  by_cases hc : ch.isclosed = true
  · cases hf : ch.isfull <;> simp [channel_send, hf, hc]
  · have hf : ch.isfull = true := by tauto
    cases imm <;> simp [channel_send, hf, hc]

theorem receive_fail_state (ch : THChannel) (imm : Bool) (h : ch.isempty = true) :
    (channel_receive ch imm).channel = ch ∧
      ∀ p, (channel_receive ch imm).result ≠ .received p := by
  cases imm <;> cases hc : ch.isclosed <;> simp [channel_receive, h, hc]

theorem sent_send (s : Storage) (imm : Bool) (r : SendResult) (c : List StorageCall) :
    Event.sent ⟨.send s imm, .send r, c⟩ = if r = .pushed true then some s else none := by
  cases r with
  | pushed b => cases b <;> simp [Event.sent]
  | closed => simp [Event.sent]
  | wait => simp [Event.sent]

theorem received_receive (o : Op) (r : ReceiveResult) (c : List StorageCall) :
    Event.received ⟨o, .receive r, c⟩
      = match r with
        | .received p => some p
        | _ => none := by
  cases r <;> simp [Event.received]

theorem step_free_teardown (ch : THChannel) (hz : int_wrap (ch.refcount - 1) = 0) :
    step ch .free = (⟨.free, .free true, (List.range ch.size).filterMap fun i =>
      (ch.args.getD i none).map StorageCall.free⟩, none) := by
  simp [step, channel_free, THAtomicDecrementRef, hz]

theorem step_free_alive (ch : THChannel) (hz : ¬ int_wrap (ch.refcount - 1) = 0) :
    step ch .free = (⟨.free, .free false, []⟩,
      some { ch with refcount := int_wrap (ch.refcount - 1) }) := by
  simp [step, channel_free, THAtomicDecrementRef, hz]

/-- One step keeps the invariant and moves the queue as a FIFO. -/
theorem step_queue (C : Nat) (ch : THChannel) (h : Inv C ch) (op : Op) :
    (∀ ch', (step ch op).2 = some ch' →
      Inv C ch' ∧
      queued ch ++ (step ch op).1.sent.toList.map some
        = (step ch op).1.received.toList ++ queued ch') ∧
    ((step ch op).2 = none →
      (step ch op).1.sent = none ∧ (step ch op).1.received = none) := by
  cases op with
  | send s imm =>
    refine ⟨?_, by simp [step]⟩
    intro ch' e
    simp only [step, Option.some.injEq] at e
    subst e
    refine ⟨send_inv C ch h s imm, ?_⟩
    simp only [step, sent_send, Event.received]
    by_cases hok : ch.isfull = true ∨ ch.isclosed = true
    · obtain ⟨e1, e2⟩ := send_fail_state ch s imm hok
      simp [e1, e2]
    · have hf : ch.isfull = false := by
        cases hh : ch.isfull <;> simp_all
      have hc : ch.isclosed = false := by
        cases hh : ch.isclosed <;> simp_all
      rw [send_queued C ch h s imm hf hc, send_state C ch h s imm hf hc]
      simp
  | receive imm =>
    refine ⟨?_, by simp [step]⟩
    intro ch' e
    simp only [step, Option.some.injEq] at e
    subst e
    refine ⟨receive_inv C ch h imm, ?_⟩
    simp only [step, Event.sent, received_receive]
    by_cases he : ch.isempty = true
    · obtain ⟨e1, e2⟩ := receive_fail_state ch imm he
      rw [e1]
      cases hr : (channel_receive ch imm).result with
      | received p => exact absurd hr (e2 p)
      | none_false => simp
      | wait => simp
    · simp only [Bool.not_eq_true] at he
      rw [receive_queued C ch h imm he, receive_state C ch h imm he]
      simp
  | close =>
    refine ⟨?_, by simp [step]⟩
    intro ch' e
    simp only [step, Option.some.injEq] at e
    subst e
    exact ⟨inv_congr C ch _ h rfl rfl rfl rfl rfl rfl,
      by simp [step, Event.sent, Event.received,
        queued_congr ch (channel_close ch) rfl rfl rfl rfl rfl]⟩
  | retain =>
    refine ⟨?_, by simp [step]⟩
    intro ch' e
    simp only [step, Option.some.injEq] at e
    subst e
    exact ⟨inv_congr C ch _ h rfl rfl rfl rfl rfl rfl,
      by simp [step, Event.sent, Event.received,
        queued_congr ch (channel_retain ch) rfl rfl rfl rfl rfl]⟩
  | fromid pushed =>
    cases pushed with
    | true =>
      refine ⟨?_, by simp [step, channel_fromid]⟩
      intro ch' e
      simp only [step, channel_fromid, if_true, Option.some.injEq] at e
      subst e
      exact ⟨inv_congr C ch _ h rfl rfl rfl rfl rfl rfl,
        by simp [step, channel_fromid, Event.sent, Event.received, queued, count, slot]⟩
    | false =>
      refine ⟨?_, by simp [step, channel_fromid]⟩
      intro ch' e
      simp only [step, channel_fromid, Bool.false_eq_true, if_false, Option.some.injEq] at e
      subst e
      exact ⟨h, by simp [step, channel_fromid, Event.sent, Event.received]⟩
  | free =>
    by_cases hz : int_wrap (ch.refcount - 1) = 0
    · simp [step_free_teardown ch hz, Event.sent, Event.received]
    · rw [step_free_alive ch hz]
      refine ⟨?_, by simp⟩
      intro ch' e
      simp only [Option.some.injEq] at e
      subst e
      exact ⟨inv_congr C ch _ h rfl rfl rfl rfl rfl rfl,
        by simp [Event.sent, Event.received, queued, count, slot]⟩

theorem run_cons_none (ch : THChannel) (op : Op) (ops : List Op)
    (h : (step ch op).2 = none) :
    run ch (op :: ops) = ([(step ch op).1], none) := by
  rcases hs : step ch op with ⟨e, n⟩
  rw [hs] at h
  simp only at h
  subst h
  simp [run, hs]

theorem run_cons_some (ch c : THChannel) (op : Op) (ops : List Op)
    (h : (step ch op).2 = some c) :
    run ch (op :: ops) = ((step ch op).1 :: (run c ops).1, (run c ops).2) := by
  rcases hs : step ch op with ⟨e, n⟩
  rw [hs] at h
  simp only at h
  subst h
  simp [run, hs]

/-- Along a run the invariant is kept and the payloads sent are those received
followed by those still queued. -/
theorem run_queue (C : Nat) (ops : List Op) : ∀ ch : THChannel, Inv C ch →
    ∃ rest, queued ch ++ (sentPayloads (run ch ops).1).map some
        = receivedPayloads (run ch ops).1 ++ rest ∧
      ∀ ch', (run ch ops).2 = some ch' → Inv C ch' ∧ rest = queued ch' := by
  induction ops with
  | nil =>
    intro ch h
    refine ⟨queued ch, by simp [run, sentPayloads, receivedPayloads], ?_⟩
    intro ch' e
    simp only [run, Option.some.injEq] at e
    subst e
    exact ⟨h, rfl⟩
  | cons op ops ih =>
    intro ch h
    obtain ⟨hs, hn⟩ := step_queue C ch h op
    cases hnext : (step ch op).2 with
    | none =>
      obtain ⟨e1, e2⟩ := hn hnext
      rw [run_cons_none ch op ops hnext]
      refine ⟨queued ch, by simp [sentPayloads, receivedPayloads, e1, e2], by simp⟩
    | some c =>
      obtain ⟨hc, hq⟩ := hs c hnext
      obtain ⟨rest, hr, hfin⟩ := ih c hc
      rw [run_cons_some ch c op ops hnext]
      refine ⟨rest, ?_, hfin⟩
      have e1 : sentPayloads ((step ch op).1 :: (run c ops).1)
          = (step ch op).1.sent.toList ++ sentPayloads (run c ops).1 := by
        unfold sentPayloads
        rw [List.filterMap_cons]
        cases (step ch op).1.sent <;> simp
      have e2 : receivedPayloads ((step ch op).1 :: (run c ops).1)
          = (step ch op).1.received.toList ++ receivedPayloads (run c ops).1 := by
        unfold receivedPayloads
        rw [List.filterMap_cons]
        cases (step ch op).1.received <;> simp
      simp only [e1, e2, List.map_append, List.append_assoc]
      rw [← List.append_assoc, hq, List.append_assoc, hr]

theorem new_ok (C : Nat) (a : Alloc) (ch : THChannel)
    (h : channel_new (C : Int) a = .ok ch) :
    ch = { args := List.replicate C none, head := 0, tail := 0, size := C % UINT_MOD,
           isempty := true, isfull := false, isclosed := false, refcount := 1 } := by
  unfold channel_new at h
  have hn : ¬ ((C : Int) < 0) := by omega
  simp only [hn, if_false, Int.toNat_ofNat] at h
  split at h
  · cases h
  · split at h
    · cases h
    · split at h
      · cases h
      · injection h with h
        exact h.symm

theorem new_inv (C : Nat) (a : Alloc) (ch : THChannel) (h1 : 1 ≤ C)
    (h2 : (C : Int) ≤ INT_MAX) (h : channel_new (C : Int) a = .ok ch) :
    Inv C ch ∧ queued ch = [] := by
  have e := new_ok C a ch h
  subst e
  have hb : C < UINT_MOD := by
    simp only [INT_MAX, UINT_MOD] at *
    omega
  have hm : C % UINT_MOD = C := Nat.mod_eq_of_lt hb
  refine ⟨⟨hm, by simp, h1, hb, h1, h1, ?_⟩, ?_⟩
  · simp [FlagInv]
  · simp [queued, count]

theorem queued_length (ch : THChannel) : (queued ch).length = count ch := by
  simp [queued]

theorem run_append (l1 l2 : List Op) : ∀ (ch c : THChannel), (run ch l1).2 = some c →
    run ch (l1 ++ l2) = ((run ch l1).1 ++ (run c l2).1, (run c l2).2) := by
  induction l1 with
  | nil =>
    intro ch c h
    simp only [run, Option.some.injEq] at h
    subst h
    simp [run]
  | cons op ops ih =>
    intro ch c h
    cases hnext : (step ch op).2 with
    | none =>
      rw [run_cons_none ch op ops hnext] at h
      cases h
    | some d =>
      rw [run_cons_some ch d op ops hnext] at h
      rw [List.cons_append, run_cons_some ch d op (ops ++ l2) hnext,
        run_cons_some ch d op ops hnext, ih d c h]
      simp

/-- Sends that fit into an open channel all succeed and are queued in order. -/
theorem run_sends (C : Nat) : ∀ (sends : List (Storage × Bool)) (ch : THChannel),
    Inv C ch → ch.isclosed = false → count ch + sends.length ≤ C →
    ∃ ch', run ch (sends.map fun p => Op.send p.1 p.2)
        = (sends.map (fun p => ⟨.send p.1 p.2, .send (.pushed true), [.retain p.1]⟩), some ch') ∧
      Inv C ch' ∧ ch'.isclosed = false ∧
      queued ch' = queued ch ++ sends.map (fun p => some p.1) ∧
      ch'.refcount = ch.refcount := by
  intro sends
  induction sends with
  | nil =>
    intro ch h hc _
    exact ⟨ch, by simp [run], h, hc, by simp, rfl⟩
  | cons p ps ih =>
    intro ch h hc hn
    have hf : ch.isfull = false := by
      cases hh : ch.isfull
      · rfl
      · have := (count_eq_size_iff C ch h).2 hh
        simp only [List.length_cons] at hn
        omega
    have hst := send_state C ch h p.1 p.2 hf hc
    have hq := send_queued C ch h p.1 p.2 hf hc
    have hcnt := send_count C ch h p.1 p.2 hf hc
    have hinv := send_inv C ch h p.1 p.2
    have hstep : step ch (.send p.1 p.2)
        = (⟨.send p.1 p.2, .send (.pushed true), [.retain p.1]⟩,
            some (channel_send ch p.1 p.2).channel) := by
      simp [step, hst]
    have hc' : (channel_send ch p.1 p.2).channel.isclosed = false := by
      rw [hst]; exact hc
    have hr' : (channel_send ch p.1 p.2).channel.refcount = ch.refcount := by
      rw [hst]
    obtain ⟨ch', e1, e2, e3, e4, e5⟩ := ih (channel_send ch p.1 p.2).channel hinv hc'
      (by simp only [List.length_cons] at hn; omega)
    refine ⟨ch', ?_, e2, e3, ?_, by rw [e5, hr']⟩
    · rw [List.map_cons, run_cons_some ch _ _ _ (by rw [hstep]), e1, hstep]
      simp
    · rw [e4, hq]
      simp

/-- Receives on a channel holding at least that many payloads all succeed and
return the queued slots in order. -/
theorem run_receives (C : Nat) : ∀ (imms : List Bool) (ch : THChannel),
    Inv C ch → imms.length ≤ count ch →
    ∃ ch', run ch (imms.map Op.receive)
        = (List.zipWith (fun i q => ⟨.receive i, .receive (.received q), []⟩)
            imms (queued ch), some ch') ∧
      Inv C ch' ∧ ch'.isclosed = ch.isclosed ∧
      queued ch' = (queued ch).drop imms.length ∧
      ch'.refcount = ch.refcount := by
  intro imms
  induction imms with
  | nil =>
    intro ch h _
    exact ⟨ch, by simp [run], h, rfl, by simp, rfl⟩
  | cons i is ih =>
    intro ch h hn
    simp only [List.length_cons] at hn
    have he : ch.isempty = false := by
      cases hh : ch.isempty
      · rfl
      · have := (count_eq_zero_iff C ch h).2 hh
        omega
    have hst := receive_state C ch h i he
    have hq := receive_queued C ch h i he
    have hcnt := receive_count C ch h i he
    have hinv := receive_inv C ch h i
    have hstep : step ch (.receive i)
        = (⟨.receive i, .receive (.received (ch.args.getD ch.head none)), []⟩,
            some (channel_receive ch i).channel) := by
      simp [step, hst]
    have hc' : (channel_receive ch i).channel.isclosed = ch.isclosed := by
      rw [hst]
    have hr' : (channel_receive ch i).channel.refcount = ch.refcount := by
      rw [hst]
    obtain ⟨ch', e1, e2, e3, e4, e5⟩ := ih (channel_receive ch i).channel hinv (by omega)
    refine ⟨ch', ?_, e2, by rw [e3, hc'], ?_, by rw [e5, hr']⟩
    · rw [List.map_cons, run_cons_some ch _ _ _ (by rw [hstep]), e1, hstep, hq]
      simp
    · rw [e4, hq]
      simp

/-- Receives on an empty closed channel all return `(nil, false)`. -/
theorem run_receives_drained : ∀ (imms : List Bool) (ch : THChannel),
    ch.isempty = true → ch.isclosed = true →
    run ch (imms.map Op.receive)
      = (imms.map (fun i => ⟨.receive i, .receive .none_false, []⟩), some ch) := by
  intro imms
  induction imms with
  | nil => intro ch _ _; simp [run]
  | cons i is ih =>
    intro ch he hc
    have hstep : step ch (.receive i)
        = (⟨.receive i, .receive .none_false, []⟩, some ch) := by
      simp [step, channel_receive, he, hc]
    rw [List.map_cons, run_cons_some ch ch _ _ (by rw [hstep]), ih ch he hc, hstep]
    simp

theorem res_zipWith_received : ∀ (imms : List Bool) (qs : List (Option Storage)),
    imms.length = qs.length →
    (List.zipWith (fun i q => (⟨Op.receive i, Res.receive (.received q), []⟩ : Event))
        imms qs).map (fun e => e.res)
      = qs.map (fun q => Res.receive (.received q)) := by
  intro imms
  induction imms with
  | nil =>
    intro qs h
    cases qs with
    | nil => rfl
    | cons q qs => simp at h
  | cons i is ih =>
    intro qs h
    cases qs with
    | nil => simp at h
    | cons q qs =>
      simp only [List.length_cons, Nat.add_right_cancel_iff] at h
      simp [ih qs h]

theorem step_flags (ch ch' : THChannel) (op : Op) (h : FlagInv ch)
    (hs : (step ch op).2 = some ch') : FlagInv ch' := by
  cases op with
  | send s imm =>
    simp only [step, Option.some.injEq] at hs
    subst hs
    unfold channel_send
    split
    · split <;> exact h
    · split
      · exact h
      · simp only [FlagInv, beq_iff_eq]
        refine ⟨?_, ?_, ?_, ?_, ?_⟩ <;> (try simp) <;> omega
  | receive imm =>
    simp only [step, Option.some.injEq] at hs
    subst hs
    unfold channel_receive
    split
    · split <;> exact h
    · simp only [FlagInv, beq_iff_eq]
      refine ⟨?_, ?_, ?_, ?_, ?_⟩ <;> (try simp) <;> omega
  | close =>
    simp only [step, Option.some.injEq] at hs
    subst hs
    exact h
  | retain =>
    simp only [step, Option.some.injEq] at hs
    subst hs
    exact h
  | fromid pushed =>
    cases pushed <;>
    · simp only [step, channel_fromid, Bool.false_eq_true, if_false, if_true,
        Option.some.injEq] at hs
      subst hs
      exact h
  | free =>
    by_cases hz : int_wrap (ch.refcount - 1) = 0
    · rw [step_free_teardown ch hz] at hs
      cases hs
    · rw [step_free_alive ch hz] at hs
      simp only [Option.some.injEq] at hs
      subst hs
      exact h

theorem run_flags (ops : List Op) : ∀ (ch ch' : THChannel), FlagInv ch →
    (run ch ops).2 = some ch' → FlagInv ch' := by
  induction ops with
  | nil =>
    intro ch ch' h e
    simp only [run, Option.some.injEq] at e
    subst e
    exact h
  | cons op ops ih =>
    intro ch ch' h e
    cases hnext : (step ch op).2 with
    | none =>
      rw [run_cons_none ch op ops hnext] at e
      cases e
    | some c =>
      rw [run_cons_some ch c op ops hnext] at e
      exact ih c ch' (step_flags ch c op h hnext) e

theorem new_flags (size : Int) (a : Alloc) (ch : THChannel)
    (h : channel_new size a = .ok ch) : FlagInv ch := by
  unfold channel_new at h
  split at h
  · cases h
  · split at h
    · cases h
    · split at h
      · cases h
      · split at h
        · cases h
        · injection h with h
          subst h
          simp [FlagInv]

theorem count_tail (C : Nat) (ch : THChannel) (h : Inv C ch) :
    (ch.head + count ch) % C = ch.tail := by
  obtain ⟨h1, h2, h3, h4, h5, h6, f1, f2, f3, f4, f5⟩ := h
  unfold count
  split
  · rename_i hf
    rw [h1, Nat.add_mod_right, Nat.mod_eq_of_lt h5]
    exact f2 hf
  · split
    · rw [Nat.mod_eq_of_lt (by omega)]
      omega
    · have e : ch.head + (ch.tail + ch.size - ch.head) = ch.tail + C := by omega
      rw [e, Nat.add_mod_right, Nat.mod_eq_of_lt h6]

theorem succ_mod (C n : Nat) (h : n < C) :
    (n + 1) % C = if n + 1 < C then n + 1 else 0 := by
  split
  · rename_i hlt
    exact Nat.mod_eq_of_lt hlt
  · have e : n + 1 = C := by omega
    rw [e, Nat.mod_self]

theorem count_int (C : Nat) (ch : THChannel) (h : Inv C ch) (hf : ch.isfull = false) :
    (count ch : Int) = ((ch.tail : Int) - (ch.head : Int)) % (C : Int) := by
  obtain ⟨h1, h2, h3, h4, h5, h6, f1, f2, f3, f4, f5⟩ := h
  simp only [count, hf, Bool.false_eq_true, if_false]
  split
  · rw [Int.emod_eq_of_lt (by omega) (by omega)]
    omega
  · have e : ((ch.tail : Int) - (ch.head : Int)) % (C : Int)
        = ((ch.tail : Int) - (ch.head : Int) + (C : Int)) % (C : Int) := by
      rw [Int.add_emod_self]
    rw [e, Int.emod_eq_of_lt (by omega) (by omega)]
    omega

theorem send_refines (C : Nat) (ch : THChannel) (h : Inv C ch) (s : Storage) (imm : Bool) :
    (channel_send ch s imm).result = ((toCount ch).send s imm).1 ∧
      toCount (channel_send ch s imm).channel = ((toCount ch).send s imm).2 := by
  have hfull : (toCount ch).isFull = ch.isfull := by
    simp only [CountChannel.isFull, toCount]
    rw [Bool.eq_iff_iff, beq_iff_eq, h.size_eq]
    exact count_eq_size_iff C ch h
  have hcl : (toCount ch).isClosed = ch.isclosed := rfl
  unfold CountChannel.send
  rw [hfull, hcl]
  by_cases hok : ch.isfull = true ∨ ch.isclosed = true
  · by_cases hc : ch.isclosed = true
    · simp [channel_send, hc]
    · have hf : ch.isfull = true := by tauto
      cases imm <;> simp [channel_send, hc, hf]
  · have hf : ch.isfull = false := by
      cases hh : ch.isfull <;> simp_all
    have hc : ch.isclosed = false := by
      cases hh : ch.isclosed <;> simp_all
    have hcnt := send_count C ch h s imm hf hc
    have htail : (toCount ch).tail = ch.tail := by
      simp only [CountChannel.tail, toCount]
      rw [h.size_eq]
      exact count_tail C ch h
    have hst := send_state C ch h s imm hf hc
    rw [htail]
    simp only [hf, hc, Bool.false_and, Bool.false_eq_true, if_false]
    refine ⟨by rw [hst], ?_⟩
    unfold toCount
    rw [hcnt, hst]
    simp [hc]

theorem receive_refines (C : Nat) (ch : THChannel) (h : Inv C ch) (imm : Bool) :
    (channel_receive ch imm).result = ((toCount ch).receive imm).1 ∧
      toCount (channel_receive ch imm).channel = ((toCount ch).receive imm).2 := by
  have hemp : (toCount ch).isEmpty = ch.isempty := by
    simp only [CountChannel.isEmpty, toCount]
    rw [Bool.eq_iff_iff, beq_iff_eq]
    exact count_eq_zero_iff C ch h
  have hcl : (toCount ch).isClosed = ch.isclosed := rfl
  unfold CountChannel.receive
  rw [hemp, hcl]
  by_cases he : ch.isempty = true
  · cases imm <;> cases hc : ch.isclosed <;> simp [channel_receive, he, hc]
  · simp only [Bool.not_eq_true] at he
    have hcnt := receive_count C ch h imm he
    have hst := receive_state C ch h imm he
    have hhead : ((toCount ch).head + 1) % (toCount ch).capacity
        = if ch.head + 1 < C then ch.head + 1 else 0 := by
      simp only [toCount]
      rw [h.size_eq]
      exact succ_mod C ch.head h.head_lt
    have hc2 : (toCount ch).count - 1 = count (channel_receive ch imm).channel := by
      simp only [toCount]
      omega
    rw [hhead, hc2]
    simp only [he, Bool.false_eq_true, if_false]
    refine ⟨by rw [hst]; rfl, ?_⟩
    unfold toCount
    rw [hst]

/-- Negative sizes are rejected with "invalid channel size". -/
theorem new_negative (size : Int) (a : Alloc) (h : size < 0) :
    channel_new size a = .error .invalid_size := by
  simp [channel_new, h]

theorem send_slots (C : Nat) (ch : THChannel) (h : Inv C ch) (hs : SlotInv ch)
    (s : Storage) (imm : Bool) (hf : ch.isfull = false) (hc : ch.isclosed = false) :
    SlotInv (channel_send ch s imm).channel := by
  have hcnt' := send_count C ch h s imm hf hc
  have hst := send_state C ch h s imm hf hc
  obtain ⟨h1, h2, h3, h4, h5, h6, f1, f2, f3, f4, f5⟩ := h
  obtain ⟨s1, s2⟩ := hs
  have hcnt : count ch = if ch.head ≤ ch.tail then ch.tail - ch.head
      else ch.tail + C - ch.head := by simp [count, hf, h1]
  have hargs : (channel_send ch s imm).channel.args = ch.args.set ch.tail (some s) := by
    rw [hst]
  have hslot : ∀ j, slot (channel_send ch s imm).channel j = slot ch j := by
    intro j; rw [hst]; rfl
  have hsize : (channel_send ch s imm).channel.size = ch.size := by rw [hst]
  have hlast : slot ch (count ch) = ch.tail := by
    simp only [slot, h1]; rw [hcnt]; split <;> split <;> omega
  have hne : ∀ j, j < count ch → ch.tail ≠ slot ch j := by
    intro j hj
    simp only [slot, h1]
    rw [hcnt] at hj
    split at hj <;> split <;> omega
  constructor
  · intro j hj
    rw [hcnt'] at hj
    rw [hslot, hargs]
    by_cases hj2 : j < count ch
    · rw [getD_set_ne _ _ _ _ _ (hne j hj2)]
      exact s1 j hj2
    · have e : j = count ch := by omega
      rw [e, hlast, getD_set_self _ _ _ _ (by omega)]
      simp
  · intro i hi hall
    rw [hsize] at hi
    rw [hcnt'] at hall
    have hit : ch.tail ≠ i := by
      have := hall (count ch) (by omega)
      rw [hslot, hlast] at this
      exact this
    rw [hargs, getD_set_ne _ _ _ _ _ hit]
    apply s2 i hi
    intro j hj
    have := hall j (by omega)
    rw [hslot] at this
    exact this

theorem receive_slots (C : Nat) (ch : THChannel) (h : Inv C ch) (hs : SlotInv ch)
    (imm : Bool) (he : ch.isempty = false) :
    SlotInv (channel_receive ch imm).channel := by
  have hcnt' := receive_count C ch h imm he
  have hle := count_le C ch h
  have hst := receive_state C ch h imm he
  obtain ⟨h1, h2, h3, h4, h5, h6, f1, f2, f3, f4, f5⟩ := h
  obtain ⟨s1, s2⟩ := hs
  have hargs : (channel_receive ch imm).channel.args = ch.args.set ch.head none := by
    rw [hst]
  have hsize : (channel_receive ch imm).channel.size = ch.size := by rw [hst]
  have hslot : ∀ j, j + 1 < C + 1 →
      slot (channel_receive ch imm).channel j = slot ch (j + 1) := by
    intro j hj
    rw [hst]
    simp only [slot, h1]
    split <;> split <;> (try split) <;> omega
  have hne : ∀ j, j + 1 < C → ch.head ≠ slot ch (j + 1) := by
    intro j hj
    simp only [slot, h1]
    split <;> omega
  have h0 : slot ch 0 = ch.head := by
    simp only [slot, h1]
    rw [if_pos (by omega)]
    rfl
  constructor
  · intro j hj
    rw [hslot j (by omega), hargs, getD_set_ne _ _ _ _ _ (hne j (by omega))]
    exact s1 (j + 1) (by omega)
  · intro i hi hall
    rw [hsize] at hi
    rw [hargs]
    by_cases hih : ch.head = i
    · rw [← hih, getD_set_self _ _ _ _ (by omega)]
    · rw [getD_set_ne _ _ _ _ _ hih]
      apply s2 i hi
      intro j hj
      cases j with
      | zero => rw [h0]; exact hih
      | succ k =>
        have := hall k (by omega)
        rw [hslot k (by omega)] at this
        exact this

theorem slots_congr (ch ch' : THChannel) (hs : SlotInv ch)
    (e1 : ch'.args = ch.args) (e2 : ch'.head = ch.head) (e3 : ch'.tail = ch.tail)
    (e4 : ch'.size = ch.size) (e6 : ch'.isfull = ch.isfull) :
    SlotInv ch' := by
  simpa only [SlotInv, count, slot, e1, e2, e3, e4, e6] using hs

theorem step_slots (C : Nat) (ch ch' : THChannel) (op : Op) (h : Inv C ch)
    (hs : SlotInv ch) (hstep : (step ch op).2 = some ch') : SlotInv ch' := by
  cases op with
  | send s imm =>
    simp only [step, Option.some.injEq] at hstep
    subst hstep
    by_cases hok : ch.isfull = true ∨ ch.isclosed = true
    · rw [(send_fail_state ch s imm hok).1]
      exact hs
    · have hf : ch.isfull = false := by
        cases hh : ch.isfull <;> simp_all
      have hc : ch.isclosed = false := by
        cases hh : ch.isclosed <;> simp_all
      exact send_slots C ch h hs s imm hf hc
  | receive imm =>
    simp only [step, Option.some.injEq] at hstep
    subst hstep
    by_cases he : ch.isempty = true
    · rw [(receive_fail_state ch imm he).1]
      exact hs
    · simp only [Bool.not_eq_true] at he
      exact receive_slots C ch h hs imm he
  | close =>
    simp only [step, Option.some.injEq] at hstep
    subst hstep
    exact slots_congr ch _ hs rfl rfl rfl rfl rfl
  | retain =>
    simp only [step, Option.some.injEq] at hstep
    subst hstep
    exact slots_congr ch _ hs rfl rfl rfl rfl rfl
  | fromid pushed =>
    cases pushed <;>
    · simp only [step, channel_fromid, Bool.false_eq_true, if_false, if_true,
        Option.some.injEq] at hstep
      subst hstep
      exact slots_congr ch _ hs rfl rfl rfl rfl rfl
  | free =>
    by_cases hz : int_wrap (ch.refcount - 1) = 0
    · rw [step_free_teardown ch hz] at hstep
      cases hstep
    · rw [step_free_alive ch hz] at hstep
      simp only [Option.some.injEq] at hstep
      subst hstep
      exact slots_congr ch _ hs rfl rfl rfl rfl rfl

theorem run_slots (C : Nat) (ops : List Op) : ∀ (ch ch' : THChannel), Inv C ch →
    SlotInv ch → (run ch ops).2 = some ch' → SlotInv ch' := by
  induction ops with
  | nil =>
    intro ch ch' _ hs e
    simp only [run, Option.some.injEq] at e
    subst e
    exact hs
  | cons op ops ih =>
    intro ch ch' h hs e
    cases hnext : (step ch op).2 with
    | none =>
      rw [run_cons_none ch op ops hnext] at e
      cases e
    | some c =>
      rw [run_cons_some ch c op ops hnext] at e
      exact ih c ch' ((step_queue C ch h op).1 c hnext).1 (step_slots C ch c op h hs hnext) e

theorem new_slots (C : Nat) (a : Alloc) (ch : THChannel)
    (h : channel_new (C : Int) a = .ok ch) : SlotInv ch := by
  have e := new_ok C a ch h
  subst e
  constructor
  · intro j hj
    simp [count] at hj
  · intro i _ _
    simp only [List.getD_eq_getElem?_getD]
    cases hi : (List.replicate C (none : Option Storage))[i]? with
    | none => rfl
    | some v =>
      have := List.getElem?_mem hi
      rw [List.mem_replicate] at this
      rw [this.2]
      rfl

/-- Going around the ring from `head` visits every index once. -/
theorem slot_perm (C : Nat) (ch : THChannel) (h : Inv C ch) :
    ((List.range C).map (slot ch)).Perm (List.range C) := by
  obtain ⟨h1, h2, h3, h4, h5, h6, _⟩ := h
  apply (List.perm_ext_iff_of_nodup ?_ (List.nodup_range C)).2
  · intro i
    simp only [List.mem_map, List.mem_range, slot, h1]
    constructor
    · rintro ⟨j, hj, e⟩
      split at e <;> omega
    · intro hi
      by_cases hge : ch.head ≤ i
      · exact ⟨i - ch.head, by omega, by split <;> omega⟩
      · exact ⟨i + C - ch.head, by omega, by split <;> omega⟩
  · apply List.Nodup.map_on _ (List.nodup_range C)
    intro x hx y hy e
    simp only [List.mem_range] at hx hy
    simp only [slot, h1] at e
    split at e <;> split at e <;> omega

theorem filterMap_range_trim {β : Type} (g : Nat → Option β) (n : Nat) :
    ∀ m, n ≤ m → (∀ j, n ≤ j → j < m → g j = none) →
      (List.range m).filterMap g = (List.range n).filterMap g := by
  intro m
  induction m with
  | zero =>
    intro hn _
    have : n = 0 := by omega
    rw [this]
  | succ m ih =>
    intro hn hg
    by_cases hnm : n = m + 1
    · rw [hnm]
    · rw [List.range_succ, List.filterMap_append, ih (by omega)
        (fun j h1 h2 => hg j h1 (by omega))]
      simp [hg m (by omega) (by omega)]

/-- The payloads freed by a teardown are those of the queued slots. -/
theorem free_calls_perm (C : Nat) (ch : THChannel) (h : Inv C ch) (hs : SlotInv ch) :
    ((List.range ch.size).filterMap fun i =>
        (ch.args.getD i none).map StorageCall.free).Perm
      ((queued ch).filterMap fun q => q.map StorageCall.free) := by
  have hle := count_le C ch h
  have hperm := slot_perm C ch h
  rw [h.size_eq]
  refine (List.Perm.filterMap _ hperm).symm.trans ?_
  rw [List.filterMap_map, queued, List.filterMap_map]
  rw [filterMap_range_trim _ (count ch) C hle]
  · rfl
  · intro j hj1 hj2
    have hnone : ch.args.getD (slot ch j) none = none := by
      apply hs.2
      · obtain ⟨h1, h2, h3, h4, h5, h6, _⟩ := h
        simp only [slot, h1]
        split <;> omega
      · intro k hk e
        obtain ⟨h1, h2, h3, h4, h5, h6, _⟩ := h
        simp only [slot, h1] at e
        split at e <;> split at e <;> omega
    simp only [Function.comp]
    rw [hnone]
    rfl

/-! ## The claims -/

/-- C1: FIFO order.  On a channel created with capacity `C ≥ 1`, for every
sequence of calls (sends, receives, closes, and also retains, fromids and
frees) the slots returned by the successful receives are a prefix of the
payloads accepted by the successful sends, in the same order; and on the fresh
channel `n ≤ C` sends of `P1..Pn` (with any `immediate` flags) all succeed and
`n` receives then return `P1..Pn` in that order. -/
theorem C1_fifo_order (C : Nat) (a : Alloc) (ch0 : THChannel) (hC : 1 ≤ C)
    (hmax : (C : Int) ≤ INT_MAX) (hnew : channel_new (C : Int) a = .ok ch0) :
    (∀ ops : List Op,
      receivedPayloads (run ch0 ops).1 <+: (sentPayloads (run ch0 ops).1).map some) ∧
    (∀ (sends : List (Storage × Bool)) (imms : List Bool),
      sends.length ≤ C → imms.length = sends.length →
      ((run ch0 ((sends.map fun p => Op.send p.1 p.2) ++ imms.map Op.receive)).1.map
          fun e => e.res)
        = sends.map (fun _ => Res.send (.pushed true)) ++
          sends.map (fun p => Res.receive (.received (some p.1)))) := by
  obtain ⟨hinv, hq0⟩ := new_inv C a ch0 hC hmax hnew
  have hcl : ch0.isclosed = false := by rw [new_ok C a ch0 hnew]
  constructor
  · intro ops
    obtain ⟨rest, hr, _⟩ := run_queue C ops ch0 hinv
    rw [hq0, List.nil_append] at hr
    exact ⟨rest, hr.symm⟩
  · intro sends imms hlen himm
    have hcnt : count ch0 = 0 := by rw [← queued_length, hq0]; rfl
    obtain ⟨ch1, e1, i1, c1, q1, _⟩ := run_sends C sends ch0 hinv hcl (by omega)
    rw [hq0, List.nil_append] at q1
    have hcnt1 : count ch1 = sends.length := by rw [← queued_length, q1]; simp
    obtain ⟨ch2, e2, _⟩ := run_receives C imms ch1 i1 (by omega)
    rw [run_append _ _ ch0 ch1 (by rw [e1]), e1, e2, q1]
    rw [List.map_append, res_zipWith_received imms _ (by simp [himm])]
    simp [List.map_map, Function.comp_def]

theorem C1_fifo_order_witness :
    channel_new ((2 : Nat) : Int) Alloc.ok
        = .ok ⟨[none, none], 0, 0, 2, true, false, false, 1⟩ ∧
      ((run ⟨[none, none], 0, 0, 2, true, false, false, 1⟩
          (([(5, false), (6, true)].map fun p => Op.send p.1 p.2) ++
            [true, false].map Op.receive)).1.map fun e => e.res)
        = [(5, false), (6, true)].map (fun _ => Res.send (.pushed true)) ++
          [(5, false), (6, true)].map (fun p => Res.receive (.received (some p.1))) :=
  ⟨rfl,
   (C1_fifo_order 2 Alloc.ok ⟨[none, none], 0, 0, 2, true, false, false, 1⟩ (by decide)
      (by decide) rfl).2 [(5, false), (6, true)] [true, false] (by decide) (by decide)⟩

/-- C2: a channel freshly created with capacity `C ≥ 1` accepts `C`
non-blocking sends (each returns `true`), and the next non-blocking send, with
no receive in between, returns `false`. -/
theorem C2_fresh_accepts_capacity (C : Nat) (a : Alloc) (ch0 : THChannel) (hC : 1 ≤ C)
    (hmax : (C : Int) ≤ INT_MAX) (hnew : channel_new (C : Int) a = .ok ch0)
    (payloads : List Storage) (extra : Storage) (hlen : payloads.length = C) :
    ((run ch0 (payloads.map (fun p => Op.send p true) ++ [Op.send extra true])).1.map
        fun e => e.res)
      = payloads.map (fun _ => Res.send (.pushed true)) ++ [Res.send (.pushed false)] := by
  obtain ⟨hinv, hq0⟩ := new_inv C a ch0 hC hmax hnew
  have hcl : ch0.isclosed = false := by rw [new_ok C a ch0 hnew]
  have hcnt : count ch0 = 0 := by rw [← queued_length, hq0]; rfl
  obtain ⟨ch1, e1, i1, c1, q1, _⟩ :=
    run_sends C (payloads.map fun p => (p, true)) ch0 hinv hcl (by simp; omega)
  simp only [List.map_map, Function.comp_def] at e1 q1
  rw [hq0, List.nil_append] at q1
  have hcnt1 : count ch1 = C := by rw [← queued_length, q1]; simp [hlen]
  have hfull : ch1.isfull = true := (count_eq_size_iff C ch1 i1).1 hcnt1
  rw [run_append _ _ ch0 ch1 (by rw [e1]), e1]
  simp [run, step, channel_send, hfull, c1, Function.comp_def]

theorem C2_fresh_accepts_capacity_witness :
    channel_new ((2 : Nat) : Int) Alloc.ok
        = .ok ⟨[none, none], 0, 0, 2, true, false, false, 1⟩ ∧
      ((run ⟨[none, none], 0, 0, 2, true, false, false, 1⟩
          ([10, 11].map (fun p => Op.send p true) ++ [Op.send 12 true])).1.map
        fun e => e.res)
      = [10, 11].map (fun _ => Res.send (.pushed true)) ++ [Res.send (.pushed false)] :=
  ⟨rfl,
   C2_fresh_accepts_capacity 2 Alloc.ok ⟨[none, none], 0, 0, 2, true, false, false, 1⟩
     (by decide) (by decide) rfl [10, 11] 12 (by decide)⟩

/-- C3 (evaluation of the code): `channel_new` rejects only `size < 0`.  With
`size = 0` and every allocation succeeding it returns a channel whose `args`
array has no slot, and the first send on that channel is accepted although
its write index `tail = 0` is outside the array. -/
theorem C3_zero_capacity_accepted :
    channel_new 0 Alloc.ok = .ok ⟨[], 0, 0, 0, true, false, false, 1⟩ ∧
      (channel_send ⟨[], 0, 0, 0, true, false, false, 1⟩ 7 true).result = .pushed true ∧
      ¬ ((⟨[], 0, 0, 0, true, false, false, 1⟩ : THChannel).tail
          < (⟨[], 0, 0, 0, true, false, false, 1⟩ : THChannel).args.length) :=
  ⟨rfl, by decide, by decide⟩

/-- C4: a send on a closed channel fails with "channel is closed", for every
state with `isclosed` set (full, partly filled or empty), every payload and
both values of `immediate`; it returns neither `true` nor `false`. -/
theorem C4_send_on_closed_fails (ch : THChannel) (storage : Storage) (immediate : Bool)
    (h : ch.isclosed = true) :
    (channel_send ch storage immediate).result = .closed := by
  simp [channel_send, h]

theorem C4_send_on_closed_fails_witness :
    (⟨[some 3, none], 0, 1, 2, false, false, true, 1⟩ : THChannel).isclosed = true ∧
      (channel_send ⟨[some 3, none], 0, 1, 2, false, false, true, 1⟩ 9 false).result
        = .closed :=
  ⟨rfl, C4_send_on_closed_fails ⟨[some 3, none], 0, 1, 2, false, false, true, 1⟩ 9 false rfl⟩

/-- C5: close-then-drain.  In a state reached on a channel of capacity
`C ≥ 1`, let the buffered payloads be those accepted by a send and not yet
returned by a receive, `K` of them.  Then `K ≤ C`, and after `channel_close`
the next `K` receives return exactly these payloads, in send order, and every
later receive returns `(nil, false)`; none reaches the wait, whatever
`immediate` is. -/
theorem C5_close_then_drain (C : Nat) (a : Alloc) (ch0 : THChannel) (hC : 1 ≤ C)
    (hmax : (C : Int) ≤ INT_MAX) (hnew : channel_new (C : Int) a = .ok ch0)
    (ops : List Op) (ch : THChannel) (hrun : (run ch0 ops).2 = some ch)
    (imms more : List Bool)
    (hK : imms.length = ((sentPayloads (run ch0 ops).1).drop
      (receivedPayloads (run ch0 ops).1).length).length) :
    imms.length ≤ C ∧
    ((run (channel_close ch) ((imms ++ more).map Op.receive)).1.map fun e => e.res)
      = ((sentPayloads (run ch0 ops).1).drop (receivedPayloads (run ch0 ops).1).length).map
          (fun p => Res.receive (.received (some p))) ++
        more.map (fun _ => Res.receive .none_false) := by
  obtain ⟨hinv0, hq0⟩ := new_inv C a ch0 hC hmax hnew
  obtain ⟨rest, hr, hfin⟩ := run_queue C ops ch0 hinv0
  obtain ⟨hinv, hrest⟩ := hfin ch hrun
  subst hrest
  rw [hq0, List.nil_append] at hr
  have hq : queued ch = ((sentPayloads (run ch0 ops).1).drop
      (receivedPayloads (run ch0 ops).1).length).map some := by
    rw [List.map_drop, hr, List.drop_left]
  have hinvc : Inv C (channel_close ch) := inv_congr C ch _ hinv rfl rfl rfl rfl rfl rfl
  have hqc : queued (channel_close ch) = queued ch :=
    queued_congr ch (channel_close ch) rfl rfl rfl rfl rfl
  have hcnt : count (channel_close ch) = imms.length := by
    rw [← queued_length, hqc, hq, List.length_map, hK]
  have hle := count_le C _ hinvc
  obtain ⟨ch2, e1, i2, c2, q2, _⟩ := run_receives C imms (channel_close ch) hinvc (by omega)
  have hc2 : ch2.isclosed = true := by rw [c2]; rfl
  have he2 : ch2.isempty = true := by
    apply (count_eq_zero_iff C ch2 i2).1
    rw [← queued_length, q2, List.length_drop, queued_length]
    omega
  refine ⟨by omega, ?_⟩
  rw [List.map_append, run_append _ _ (channel_close ch) ch2 (by rw [e1]), e1,
    run_receives_drained more ch2 he2 hc2, hqc, List.map_append,
    res_zipWith_received imms _ (by rw [← hqc, queued_length, hcnt]), hq]
  simp [List.map_map, Function.comp_def]

theorem C5_close_then_drain_witness :
    channel_new ((2 : Nat) : Int) Alloc.ok
        = .ok ⟨[none, none], 0, 0, 2, true, false, false, 1⟩ ∧
      (run ⟨[none, none], 0, 0, 2, true, false, false, 1⟩
          [.send 4 false, .send 5 false, .receive false, .send 6 true]).2
        = some ⟨[some 6, some 5], 1, 1, 2, false, true, false, 1⟩ ∧
      ((run (channel_close ⟨[some 6, some 5], 1, 1, 2, false, true, false, 1⟩)
          (([false, true] ++ [false, true]).map Op.receive)).1.map fun e => e.res)
        = [Res.receive (.received (some 5)), Res.receive (.received (some 6)),
           Res.receive .none_false, Res.receive .none_false] :=
  ⟨rfl, by decide,
   (C5_close_then_drain 2 Alloc.ok ⟨[none, none], 0, 0, 2, true, false, false, 1⟩
      (by decide) (by decide) rfl
      [.send 4 false, .send 5 false, .receive false, .send 6 true]
      ⟨[some 6, some 5], 1, 1, 2, false, true, false, 1⟩ (by decide)
      [false, true] [false, true] (by decide)).2⟩

/-- C6: round trip.  In an empty, open state of a channel of capacity
`C ≥ 1`, a send of `P` succeeds and stores `P` in the slot at the old `tail`;
the receive that follows returns exactly `P` with `true`, leaves that slot
NULL and the channel empty, and a further non-blocking receive returns
`(nil, false)` and changes nothing, so `P` is not delivered again. -/
theorem C6_round_trip (C : Nat) (a : Alloc) (ch0 : THChannel) (hC : 1 ≤ C)
    (hmax : (C : Int) ≤ INT_MAX) (hnew : channel_new (C : Int) a = .ok ch0)
    (ops : List Op) (ch : THChannel) (hrun : (run ch0 ops).2 = some ch)
    (hempty : ch.isempty = true) (hopen : ch.isclosed = false)
    (P : Storage) (i1 i2 : Bool) :
    (channel_send ch P i1).result = .pushed true ∧
    (channel_send ch P i1).channel.args[ch.tail]? = some (some P) ∧
    (channel_receive (channel_send ch P i1).channel i2).result = .received (some P) ∧
    (channel_receive (channel_send ch P i1).channel i2).channel.args[ch.tail]?
      = some none ∧
    (channel_receive (channel_send ch P i1).channel i2).channel.isempty = true ∧
    queued (channel_receive (channel_send ch P i1).channel i2).channel = [] ∧
    channel_receive (channel_receive (channel_send ch P i1).channel i2).channel true
      = ⟨.none_false, (channel_receive (channel_send ch P i1).channel i2).channel, []⟩ := by
  obtain ⟨hinv0, hq0⟩ := new_inv C a ch0 hC hmax hnew
  obtain ⟨rest, _, hfin⟩ := run_queue C ops ch0 hinv0
  obtain ⟨hinv, _⟩ := hfin ch hrun
  have hf : ch.isfull = false := by
    cases hh : ch.isfull
    · rfl
    · exact absurd ⟨hempty, hh⟩ hinv.flags.2.2.1
  have hht : ch.head = ch.tail := hinv.flags.1 hempty
  have hq : queued ch = [] := by
    have := (count_eq_zero_iff C ch hinv).2 hempty
    simp [queued, this]
  have hs := send_state C ch hinv P i1 hf hopen
  have hsq := send_queued C ch hinv P i1 hf hopen
  have hsi := send_inv C ch hinv P i1
  have hne : (channel_send ch P i1).channel.isempty = false := by rw [hs]
  have hr := receive_state C _ hsi i2 hne
  have hrq := receive_queued C _ hsi i2 hne
  have hri := receive_inv C _ hsi i2
  have hlen : ch.tail < ch.args.length := by rw [hinv.len]; exact hinv.tail_lt
  have hhead : (channel_send ch P i1).channel.head = ch.tail := by rw [hs]; exact hht
  have hargs : (channel_send ch P i1).channel.args = ch.args.set ch.tail (some P) := by
    rw [hs]
  have hq2 : queued (channel_receive (channel_send ch P i1).channel i2).channel = [] := by
    rw [hsq, hq, List.nil_append] at hrq
    injection hrq with _ h2
    exact h2.symm
  have he2 : (channel_receive (channel_send ch P i1).channel i2).channel.isempty = true := by
    apply (count_eq_zero_iff C _ hri).1
    rw [← queued_length, hq2]
    rfl
  refine ⟨by rw [hs], ?_, ?_, ?_, he2, hq2, ?_⟩
  · rw [hargs, List.getElem?_set_self hlen]
  · rw [hr, hhead, hargs, getD_set_self _ _ _ _ hlen]
  · rw [hr]
    simp only [hhead, hargs]
    rw [List.getElem?_set_self (by simpa using hlen)]
  · generalize (channel_receive (channel_send ch P i1).channel i2).channel = c at he2 ⊢
    simp [channel_receive, he2]

theorem C6_round_trip_witness :
    channel_new ((2 : Nat) : Int) Alloc.ok
        = .ok ⟨[none, none], 0, 0, 2, true, false, false, 1⟩ ∧
      (run ⟨[none, none], 0, 0, 2, true, false, false, 1⟩
          [.send 4 false, .receive false]).2
        = some ⟨[none, none], 1, 1, 2, true, false, false, 1⟩ ∧
      (channel_receive (channel_send ⟨[none, none], 1, 1, 2, true, false, false, 1⟩
          9 false).channel false).result = .received (some 9) :=
  ⟨rfl, by decide,
   (C6_round_trip 2 Alloc.ok ⟨[none, none], 0, 0, 2, true, false, false, 1⟩
      (by decide) (by decide) rfl [.send 4 false, .receive false]
      ⟨[none, none], 1, 1, 2, true, false, false, 1⟩ (by decide) rfl rfl 9 false false).2.2.1⟩

/-- C7: flag invariant.  In every state reached from a successful
`channel_new` (of any size it accepts) by any sequence of send, receive, close,
retain, fromid and free calls: `isempty` implies `head == tail`, `isfull`
implies `head == tail`, the two flags are never both set, exactly one of them
is set when `head == tail`, and both are clear when `head != tail`. -/
theorem C7_flag_invariant (size : Int) (a : Alloc) (ch0 : THChannel)
    (hnew : channel_new size a = .ok ch0) (ops : List Op) (ch : THChannel)
    (hrun : (run ch0 ops).2 = some ch) :
    (ch.isempty = true → ch.head = ch.tail) ∧
    (ch.isfull = true → ch.head = ch.tail) ∧
    ¬ (ch.isempty = true ∧ ch.isfull = true) ∧
    (ch.head = ch.tail → ch.isempty ≠ ch.isfull) ∧
    (ch.head ≠ ch.tail → ch.isempty = false ∧ ch.isfull = false) := by
  obtain ⟨f1, f2, f3, f4, f5⟩ := run_flags ops ch0 ch (new_flags size a ch0 hnew) hrun
  refine ⟨f1, f2, f3, ?_, f5⟩
  intro e
  rcases f4 e with h | h
  · intro e2
    exact f3 ⟨h, by rw [← e2]; exact h⟩
  · intro e2
    exact f3 ⟨by rw [e2]; exact h, h⟩

theorem C7_flag_invariant_witness :
    channel_new 2 Alloc.ok = .ok ⟨[none, none], 0, 0, 2, true, false, false, 1⟩ ∧
      (run ⟨[none, none], 0, 0, 2, true, false, false, 1⟩
          [.send 4 false, .retain, .send 5 true, .free]).2
        = some ⟨[some 4, some 5], 0, 0, 2, false, true, false, 1⟩ ∧
      ((⟨[some 4, some 5], 0, 0, 2, false, true, false, 1⟩ : THChannel).head
          = (⟨[some 4, some 5], 0, 0, 2, false, true, false, 1⟩ : THChannel).tail →
        (⟨[some 4, some 5], 0, 0, 2, false, true, false, 1⟩ : THChannel).isempty
          ≠ (⟨[some 4, some 5], 0, 0, 2, false, true, false, 1⟩ : THChannel).isfull) :=
  ⟨rfl, by decide,
   (C7_flag_invariant 2 Alloc.ok ⟨[none, none], 0, 0, 2, true, false, false, 1⟩ rfl
      [.send 4 false, .retain, .send 5 true, .free]
      ⟨[some 4, some 5], 0, 0, 2, false, true, false, 1⟩ (by decide)).2.2.2.1⟩

/-- C8: the flag-based ring refines a count-based bounded queue.  In every
state reached on a channel of capacity `C ≥ 1`, the number `n` of queued
payloads (successful sends minus successful receives) satisfies `0 ≤ n ≤ C`,
`n = (tail - head) mod C` when `isfull` is clear and `n = C` when it is set,
`isempty` holds iff `n = 0` and `isfull` iff `n = C`.  The count-based queue
`toCount` of the state has `count = n`, that of the fresh channel is the new
count-based queue, and send, receive and close on the channel return the same
result and lead to the same count-based queue as on that model. -/
theorem C8_refines_count_queue (C : Nat) (a : Alloc) (ch0 : THChannel) (hC : 1 ≤ C)
    (hmax : (C : Int) ≤ INT_MAX) (hnew : channel_new (C : Int) a = .ok ch0)
    (ops : List Op) (ch : THChannel) (hrun : (run ch0 ops).2 = some ch) :
    (0 ≤ ((sentPayloads (run ch0 ops).1).length : Int)
          - ((receivedPayloads (run ch0 ops).1).length : Int)) ∧
    (((sentPayloads (run ch0 ops).1).length : Int)
          - ((receivedPayloads (run ch0 ops).1).length : Int) ≤ (C : Int)) ∧
    (ch.isfull = false →
      ((sentPayloads (run ch0 ops).1).length : Int)
          - ((receivedPayloads (run ch0 ops).1).length : Int)
        = ((ch.tail : Int) - (ch.head : Int)) % (C : Int)) ∧
    (ch.isfull = true →
      ((sentPayloads (run ch0 ops).1).length : Int)
          - ((receivedPayloads (run ch0 ops).1).length : Int) = (C : Int)) ∧
    (ch.isempty = true ↔
      ((sentPayloads (run ch0 ops).1).length : Int)
          - ((receivedPayloads (run ch0 ops).1).length : Int) = 0) ∧
    (ch.isfull = true ↔
      ((sentPayloads (run ch0 ops).1).length : Int)
          - ((receivedPayloads (run ch0 ops).1).length : Int) = (C : Int)) ∧
    (((toCount ch).count : Int)
        = ((sentPayloads (run ch0 ops).1).length : Int)
          - ((receivedPayloads (run ch0 ops).1).length : Int)) ∧
    toCount ch0 = CountChannel.create C ∧
    (∀ (s : Storage) (imm : Bool),
      (channel_send ch s imm).result = ((toCount ch).send s imm).1 ∧
      toCount (channel_send ch s imm).channel = ((toCount ch).send s imm).2) ∧
    (∀ imm : Bool,
      (channel_receive ch imm).result = ((toCount ch).receive imm).1 ∧
      toCount (channel_receive ch imm).channel = ((toCount ch).receive imm).2) ∧
    toCount (channel_close ch) = (toCount ch).close := by
  obtain ⟨hinv0, hq0⟩ := new_inv C a ch0 hC hmax hnew
  obtain ⟨rest, hr, hfin⟩ := run_queue C ops ch0 hinv0
  obtain ⟨hinv, hrest⟩ := hfin ch hrun
  subst hrest
  rw [hq0, List.nil_append] at hr
  have hlen : (sentPayloads (run ch0 ops).1).length
      = (receivedPayloads (run ch0 ops).1).length + count ch := by
    have := congrArg List.length hr
    simpa [queued_length] using this
  have hn : ((sentPayloads (run ch0 ops).1).length : Int)
      - ((receivedPayloads (run ch0 ops).1).length : Int) = (count ch : Int) := by
    rw [hlen]; push_cast; ring
  rw [hn]
  have hle := count_le C ch hinv
  have hz := count_eq_zero_iff C ch hinv
  have hs := count_eq_size_iff C ch hinv
  refine ⟨by omega, by omega, count_int C ch hinv, ?_, ?_, ?_, rfl, ?_,
    send_refines C ch hinv, receive_refines C ch hinv, rfl⟩
  · intro hf
    have := hs.2 hf
    omega
  · rw [← hz]; omega
  · rw [← hs]; omega
  · have e := new_ok C a ch0 hnew
    subst e
    have hb : C < UINT_MOD := hinv0.bound
    simp [toCount, CountChannel.create, count, Nat.mod_eq_of_lt hb]

theorem C8_refines_count_queue_witness :
    channel_new ((2 : Nat) : Int) Alloc.ok
        = .ok ⟨[none, none], 0, 0, 2, true, false, false, 1⟩ ∧
      (run ⟨[none, none], 0, 0, 2, true, false, false, 1⟩
          [.send 4 false, .send 5 false, .receive false, .send 6 true]).2
        = some ⟨[some 6, some 5], 1, 1, 2, false, true, false, 1⟩ ∧
      (channel_send ⟨[some 6, some 5], 1, 1, 2, false, true, false, 1⟩ 7 true).result
        = ((toCount ⟨[some 6, some 5], 1, 1, 2, false, true, false, 1⟩).send 7 true).1 :=
  ⟨rfl, by decide,
   ((C8_refines_count_queue 2 Alloc.ok ⟨[none, none], 0, 0, 2, true, false, false, 1⟩
      (by decide) (by decide) rfl
      [.send 4 false, .send 5 false, .receive false, .send 6 true]
      ⟨[some 6, some 5], 1, 1, 2, false, true, false, 1⟩
      (by decide)).2.2.2.2.2.2.2.2.1 7 true).1⟩

/-- C10: `isclosed` is monotonic.  A call (send, receive, close, retain,
fromid, or a free that does not tear down) made in a state with `isclosed`
set leaves it set; a call other than close leaves a clear `isclosed` clear;
close sets it; and a freshly created channel has it clear. -/
theorem C10_isclosed_monotonic (ch : THChannel) (op : Op) (ch' : THChannel)
    (hstep : (step ch op).2 = some ch') :
    (ch.isclosed = true → ch'.isclosed = true) ∧
    (op ≠ .close → ch'.isclosed = ch.isclosed) ∧
    (op = .close → ch'.isclosed = true) ∧
    (∀ (size : Int) (a : Alloc) (ch0 : THChannel),
      channel_new size a = .ok ch0 → ch0.isclosed = false) := by
  have hnew : ∀ (size : Int) (a : Alloc) (ch0 : THChannel),
      channel_new size a = .ok ch0 → ch0.isclosed = false := by
    intro size a ch0 h
    unfold channel_new at h
    split at h
    · cases h
    · split at h
      · cases h
      · split at h
        · cases h
        · split at h
          · cases h
          · injection h with h
            subst h
            rfl
  have key : (op ≠ .close → ch'.isclosed = ch.isclosed) ∧ (op = .close → ch'.isclosed = true) := by
    cases op with
    | send s imm =>
      simp only [step, Option.some.injEq] at hstep
      subst hstep
      refine ⟨fun _ => ?_, by simp⟩
      simp only [channel_send]
      split
      · split <;> rfl
      · split <;> rfl
    | receive imm =>
      simp only [step, Option.some.injEq] at hstep
      subst hstep
      refine ⟨fun _ => ?_, by simp⟩
      simp only [channel_receive]
      split
      · split <;> rfl
      · rfl
    | close =>
      simp only [step, Option.some.injEq] at hstep
      subst hstep
      exact ⟨by simp, fun _ => rfl⟩
    | retain =>
      simp only [step, Option.some.injEq] at hstep
      subst hstep
      exact ⟨fun _ => rfl, by simp⟩
    | fromid pushed =>
      cases pushed <;>
      · simp only [step, channel_fromid, Bool.false_eq_true, if_false, if_true,
          Option.some.injEq] at hstep
        subst hstep
        exact ⟨fun _ => rfl, by simp⟩
    | free =>
      by_cases hz : int_wrap (ch.refcount - 1) = 0
      · rw [step_free_teardown ch hz] at hstep
        cases hstep
      · rw [step_free_alive ch hz] at hstep
        simp only [Option.some.injEq] at hstep
        subst hstep
        exact ⟨fun _ => rfl, by simp⟩
  refine ⟨?_, key.1, key.2, hnew⟩
  intro h
  by_cases hop : op = .close
  · exact key.2 hop
  · rw [key.1 hop, h]

theorem C10_isclosed_monotonic_witness :
    (step ⟨[some 3, none], 0, 1, 2, false, false, true, 2⟩ (.receive false)).2
        = some ⟨[none, none], 1, 1, 2, true, false, true, 2⟩ ∧
      ((⟨[some 3, none], 0, 1, 2, false, false, true, 2⟩ : THChannel).isclosed = true →
        (⟨[none, none], 1, 1, 2, true, false, true, 2⟩ : THChannel).isclosed = true) :=
  ⟨by decide,
   (C10_isclosed_monotonic ⟨[some 3, none], 0, 1, 2, false, false, true, 2⟩ (.receive false)
      ⟨[none, none], 1, 1, 2, true, false, true, 2⟩ (by decide)).1⟩

/-- C11: close is idempotent and infallible.  For every state, the close call
returns normally with the state `channel_close` gives; that state differs
from the old one in `isclosed` only (set), so args, head, tail, size, isempty,
isfull and refcount are unchanged; closing twice equals closing once; and
closing leaves the state exactly as it was iff it was already closed. -/
theorem C11_close_idempotent (ch : THChannel) :
    step ch .close = (⟨.close, .unit, []⟩, some (channel_close ch)) ∧
    channel_close ch = { ch with isclosed := true } ∧
    (channel_close ch).args = ch.args ∧
    (channel_close ch).head = ch.head ∧
    (channel_close ch).tail = ch.tail ∧
    (channel_close ch).size = ch.size ∧
    (channel_close ch).isempty = ch.isempty ∧
    (channel_close ch).isfull = ch.isfull ∧
    (channel_close ch).refcount = ch.refcount ∧
    (channel_close ch).isclosed = true ∧
    channel_close (channel_close ch) = channel_close ch ∧
    (channel_close ch = ch ↔ ch.isclosed = true) := by
  refine ⟨rfl, rfl, rfl, rfl, rfl, rfl, rfl, rfl, rfl, rfl, rfl, ?_⟩
  constructor
  · intro h
    rw [← h]
    rfl
  · intro h
    cases ch
    simp only [channel_close] at h ⊢
    simp [h]

/-- C12: the concrete scenario.  On the fresh channel of capacity 2, for any
payloads `A`, `B`, `C`: Send(A) returns true; Send(B) returns true;
Send(C, immediate) returns false; Receive() returns (A, true);
Send(C, immediate) returns true; Receive() returns (B, true); Receive()
returns (C, true); Receive(immediate) returns (nil, false).  The blocking
calls return these results, so none of them reaches the wait. -/
theorem C12_concrete_scenario (A B C : Storage) :
    channel_new 2 Alloc.ok = .ok ⟨[none, none], 0, 0, 2, true, false, false, 1⟩ ∧
    ((run ⟨[none, none], 0, 0, 2, true, false, false, 1⟩
        [.send A false, .send B false, .send C true, .receive false,
         .send C true, .receive false, .receive false, .receive true]).1.map
      fun e => e.res)
      = [.send (.pushed true), .send (.pushed true), .send (.pushed false),
         .receive (.received (some A)), .send (.pushed true),
         .receive (.received (some B)), .receive (.received (some C)),
         .receive .none_false] :=
  ⟨rfl, rfl⟩

/-- C13: the non-blocking variants never block.  For every state and
payload, send with `immediate` returns true, false or the closed error, and
receive with `immediate` returns a slot content or `(nil, false)`; neither
reaches the wait.  Send reaches the wait exactly when `immediate` is false,
the buffer is full and the channel is open; receive exactly when `immediate`
is false, the buffer is empty and the channel is open. -/
theorem C13_immediate_never_waits (ch : THChannel) (storage : Storage) (immediate : Bool) :
    ((channel_send ch storage true).result = .pushed true ∨
      (channel_send ch storage true).result = .pushed false ∨
      (channel_send ch storage true).result = .closed) ∧
    ((∃ p, (channel_receive ch true).result = .received p) ∨
      (channel_receive ch true).result = .none_false) ∧
    ((channel_send ch storage immediate).result = .wait ↔
      (immediate = false ∧ ch.isfull = true ∧ ch.isclosed = false)) ∧
    ((channel_receive ch immediate).result = .wait ↔
      (immediate = false ∧ ch.isempty = true ∧ ch.isclosed = false)) := by
  refine ⟨?_, ?_, ?_, ?_⟩
  · cases hf : ch.isfull <;> cases hc : ch.isclosed <;> simp [channel_send, hf, hc]
  · cases he : ch.isempty <;> simp [channel_receive, he]
  · cases hf : ch.isfull <;> cases hc : ch.isclosed <;> cases immediate <;>
      simp [channel_send, hf, hc]
  · cases he : ch.isempty <;> cases hc : ch.isclosed <;> cases immediate <;>
      simp [channel_receive, he, hc]

/-- C15: close-blocks-senders.  A blocking send on a full, open channel
reaches the wait: the call stores nothing and its thread is suspended on
`notfull`.  When another thread then runs `channel_close`, the channel is
closed and, by the broadcasts of that call, no thread is left suspended and
the sender is among the woken ones.  When the woken sender runs, its send
fails with the closed error, stores and retains nothing, and the channel is
as close left it, still full.  The same holds for a sender suspended in any
state (`t`), and a woken sender fails in every closed state. -/
theorem C15_close_releases_senders (s : Sys) (storage : Storage)
    (hfull : s.channel.isfull = true) (hopen : s.channel.isclosed = false) :
    sys_send s storage false
      = (⟨.send storage false, .send .wait, []⟩,
         { s with waiting := s.waiting ++ [.sender storage] }) ∧
    (sys_close (sys_send s storage false).2).2.channel = channel_close s.channel ∧
    (sys_close (sys_send s storage false).2).2.waiting = [] ∧
    Waiter.sender storage ∈ (sys_close (sys_send s storage false).2).2.ready ∧
    sys_resume (sys_close (sys_send s storage false).2).2 (.sender storage)
      = (⟨.send storage false, .send .closed, []⟩,
         { channel := channel_close s.channel
           waiting := []
           ready := (sys_close (sys_send s storage false).2).2.ready.erase
             (.sender storage) }) ∧
    (channel_close s.channel).isfull = true ∧
    (channel_close s.channel).args = s.channel.args ∧
    (∀ t : Sys, Waiter.sender storage ∈ t.waiting →
      (sys_close t).2.channel = channel_close t.channel ∧
      (sys_close t).2.waiting = [] ∧
      Waiter.sender storage ∈ (sys_close t).2.ready) ∧
    (∀ t : Sys, t.channel.isclosed = true →
      sys_resume t (.sender storage)
        = (⟨.send storage false, .send .closed, []⟩,
           { t with ready := t.ready.erase (.sender storage) })) := by
  have hsend : sys_send s storage false
      = (⟨.send storage false, .send .wait, []⟩,
         { s with waiting := s.waiting ++ [.sender storage] }) := by
    simp [sys_send, channel_send, hfull, hopen, THCondition_wait]
  have hclose : ∀ t : Sys, Waiter.sender storage ∈ t.waiting →
      (sys_close t).2.channel = channel_close t.channel ∧
      (sys_close t).2.waiting = [] ∧
      Waiter.sender storage ∈ (sys_close t).2.ready := by
    intro t hmem
    refine ⟨rfl, ?_, ?_⟩
    · simp only [sys_close, channel_close_broadcasts, List.foldl, THCondition_broadcast,
        List.filter_filter]
      rw [List.filter_eq_nil_iff]
      intro w _
      cases w <;> simp [Waiter.cond]
    · simp only [sys_close, channel_close_broadcasts, List.foldl, THCondition_broadcast]
      apply List.mem_append_left
      apply List.mem_append_right
      rw [List.mem_filter]
      exact ⟨hmem, by simp [Waiter.cond]⟩
  have hresume : ∀ t : Sys, t.channel.isclosed = true →
      sys_resume t (.sender storage)
        = (⟨.send storage false, .send .closed, []⟩,
           { t with ready := t.ready.erase (.sender storage) }) := by
    intro t h
    simp [sys_resume, sys_send, channel_send, h]
  have hmem : Waiter.sender storage ∈ (sys_send s storage false).2.waiting := by
    rw [hsend]
    simp
  obtain ⟨c1, c2, c3⟩ := hclose (sys_send s storage false).2 hmem
  have c1' : (sys_close (sys_send s storage false).2).2.channel = channel_close s.channel := by
    rw [c1, hsend]
  refine ⟨hsend, c1', c2, c3, ?_, hfull, rfl, hclose, hresume⟩
  rw [hresume _ (by rw [c1']; rfl)]
  congr 1
  rw [← c1', ← c2]

theorem C15_close_releases_senders_witness :
    (⟨[some 3, some 4], 0, 0, 2, false, true, false, 1⟩ : THChannel).isfull = true ∧
      (⟨[some 3, some 4], 0, 0, 2, false, true, false, 1⟩ : THChannel).isclosed = false ∧
      sys_send ⟨⟨[some 3, some 4], 0, 0, 2, false, true, false, 1⟩, [.receiver], []⟩ 9 false
        = (⟨.send 9 false, .send .wait, []⟩,
           ⟨⟨[some 3, some 4], 0, 0, 2, false, true, false, 1⟩,
            [.receiver, .sender 9], []⟩) ∧
      (sys_close (sys_send ⟨⟨[some 3, some 4], 0, 0, 2, false, true, false, 1⟩,
          [.receiver], []⟩ 9 false).2).2.waiting = [] ∧
      Waiter.sender 9 ∈ (sys_close (sys_send
          ⟨⟨[some 3, some 4], 0, 0, 2, false, true, false, 1⟩,
           [.receiver], []⟩ 9 false).2).2.ready :=
  ⟨rfl, rfl,
   (C15_close_releases_senders ⟨⟨[some 3, some 4], 0, 0, 2, false, true, false, 1⟩,
      [.receiver], []⟩ 9 rfl rfl).1,
   (C15_close_releases_senders ⟨⟨[some 3, some 4], 0, 0, 2, false, true, false, 1⟩,
      [.receiver], []⟩ 9 rfl rfl).2.2.1,
   (C15_close_releases_senders ⟨⟨[some 3, some 4], 0, 0, 2, false, true, false, 1⟩,
      [.receiver], []⟩ 9 rfl rfl).2.2.2.1⟩

/-- C16: index safety.  In every state reached on a channel of capacity
`C ≥ 1` the array has `C` slots and `head < C`, `tail < C`, so the write
`args[tail]` of send and the read `args[head]` of receive are inside the
array; a successful send moves `tail` to `(tail + 1) mod C` and leaves `head`,
a successful receive moves `head` to `(head + 1) mod C` and leaves `tail`. -/
theorem C16_index_safety (C : Nat) (a : Alloc) (ch0 : THChannel) (hC : 1 ≤ C)
    (hmax : (C : Int) ≤ INT_MAX) (hnew : channel_new (C : Int) a = .ok ch0)
    (ops : List Op) (ch : THChannel) (hrun : (run ch0 ops).2 = some ch) :
    ch.size = C ∧ ch.args.length = C ∧ ch.head < C ∧ ch.tail < C ∧
    ch.tail < ch.args.length ∧ ch.head < ch.args.length ∧
    (∀ (s : Storage) (imm : Bool), (channel_send ch s imm).result = .pushed true →
      (channel_send ch s imm).channel.tail = (ch.tail + 1) % C ∧
      (channel_send ch s imm).channel.head = ch.head) ∧
    (∀ (imm : Bool) (p : Option Storage), (channel_receive ch imm).result = .received p →
      (channel_receive ch imm).channel.head = (ch.head + 1) % C ∧
      (channel_receive ch imm).channel.tail = ch.tail) := by
  obtain ⟨hinv0, _⟩ := new_inv C a ch0 hC hmax hnew
  obtain ⟨rest, _, hfin⟩ := run_queue C ops ch0 hinv0
  obtain ⟨hinv, _⟩ := hfin ch hrun
  refine ⟨hinv.size_eq, hinv.len, hinv.head_lt, hinv.tail_lt,
    by rw [hinv.len]; exact hinv.tail_lt, by rw [hinv.len]; exact hinv.head_lt, ?_, ?_⟩
  · intro s imm hres
    by_cases hok : ch.isfull = true ∨ ch.isclosed = true
    · exact absurd hres (send_fail_state ch s imm hok).2
    · have hf : ch.isfull = false := by
        cases hh : ch.isfull <;> simp_all
      have hc : ch.isclosed = false := by
        cases hh : ch.isclosed <;> simp_all
      rw [send_state C ch hinv s imm hf hc, succ_mod C ch.tail hinv.tail_lt]
      exact ⟨rfl, rfl⟩
  · intro imm p hres
    by_cases he : ch.isempty = true
    · exact absurd hres ((receive_fail_state ch imm he).2 p)
    · simp only [Bool.not_eq_true] at he
      rw [receive_state C ch hinv imm he, succ_mod C ch.head hinv.head_lt]
      exact ⟨rfl, rfl⟩

theorem C16_index_safety_witness :
    channel_new ((2 : Nat) : Int) Alloc.ok
        = .ok ⟨[none, none], 0, 0, 2, true, false, false, 1⟩ ∧
      (run ⟨[none, none], 0, 0, 2, true, false, false, 1⟩
          [.send 4 false, .send 5 false, .receive false]).2
        = some ⟨[none, some 5], 1, 0, 2, false, false, false, 1⟩ ∧
      (⟨[none, some 5], 1, 0, 2, false, false, false, 1⟩ : THChannel).head < 2 ∧
      (⟨[none, some 5], 1, 0, 2, false, false, false, 1⟩ : THChannel).tail < 2 :=
  ⟨rfl, by decide,
   (C16_index_safety 2 Alloc.ok ⟨[none, none], 0, 0, 2, true, false, false, 1⟩
      (by decide) (by decide) rfl [.send 4 false, .send 5 false, .receive false]
      ⟨[none, some 5], 1, 0, 2, false, false, false, 1⟩ (by decide)).2.2.1,
   (C16_index_safety 2 Alloc.ok ⟨[none, none], 0, 0, 2, true, false, false, 1⟩
      (by decide) (by decide) rfl [.send 4 false, .send 5 false, .receive false]
      ⟨[none, some 5], 1, 0, 2, false, false, false, 1⟩ (by decide)).2.2.2.1⟩

/-- C17: payload reference conservation.  A send that returns true makes
exactly one payload call, the retain of its payload; a receive makes none,
and a successful one returns the oldest payload sent and not yet received.
In every state reached on a channel of capacity `C ≥ 1` the queued slots hold
exactly the payloads sent and not yet received, in order, and a slot of the
array is non-NULL iff it is one of these queued slots; so a teardown in that
state frees exactly these payloads, each once per queued reference, and none
that was already received. -/
theorem C17_payload_references (C : Nat) (a : Alloc) (ch0 : THChannel) (hC : 1 ≤ C)
    (hmax : (C : Int) ≤ INT_MAX) (hnew : channel_new (C : Int) a = .ok ch0)
    (ops : List Op) (ch : THChannel) (hrun : (run ch0 ops).2 = some ch) :
    (∀ (s : Storage) (imm : Bool), (channel_send ch s imm).result = .pushed true →
      (channel_send ch s imm).calls = [.retain s]) ∧
    (∀ imm : Bool, (channel_receive ch imm).calls = []) ∧
    (∀ (imm : Bool) (p : Option Storage), (channel_receive ch imm).result = .received p →
      p ≠ none ∧
      p = ((sentPayloads (run ch0 ops).1).drop
            (receivedPayloads (run ch0 ops).1).length).head?) ∧
    queued ch = ((sentPayloads (run ch0 ops).1).drop
        (receivedPayloads (run ch0 ops).1).length).map some ∧
    (∀ i, i < C →
      (ch.args.getD i none ≠ none ↔
        ∃ j, j < ((sentPayloads (run ch0 ops).1).drop
            (receivedPayloads (run ch0 ops).1).length).length ∧ slot ch j = i)) ∧
    (∀ calls, channel_free ch = .torndown calls →
      calls.Perm (((sentPayloads (run ch0 ops).1).drop
          (receivedPayloads (run ch0 ops).1).length).map StorageCall.free)) := by
  obtain ⟨hinv0, hq0⟩ := new_inv C a ch0 hC hmax hnew
  obtain ⟨rest, hr, hfin⟩ := run_queue C ops ch0 hinv0
  obtain ⟨hinv, hrest⟩ := hfin ch hrun
  subst hrest
  rw [hq0, List.nil_append] at hr
  have hslots := run_slots C ops ch0 ch hinv0 (new_slots C a ch0 hnew) hrun
  have hq : queued ch = ((sentPayloads (run ch0 ops).1).drop
      (receivedPayloads (run ch0 ops).1).length).map some := by
    rw [List.map_drop, hr, List.drop_left]
  generalize (sentPayloads (run ch0 ops).1).drop
      (receivedPayloads (run ch0 ops).1).length = buffered at hq ⊢
  have hlen : buffered.length = count ch := by
    rw [← queued_length, hq, List.length_map]
  refine ⟨?_, ?_, ?_, hq, ?_, ?_⟩
  · intro s imm hres
    by_cases hok : ch.isfull = true ∨ ch.isclosed = true
    · exact absurd hres (send_fail_state ch s imm hok).2
    · have hf : ch.isfull = false := by
        cases hh : ch.isfull <;> simp_all
      have hc : ch.isclosed = false := by
        cases hh : ch.isclosed <;> simp_all
      rw [send_state C ch hinv s imm hf hc]
  · intro imm
    unfold channel_receive
    split
    · split <;> rfl
    · rfl
  · intro imm p hres
    by_cases he : ch.isempty = true
    · exact absurd hres ((receive_fail_state ch imm he).2 p)
    · simp only [Bool.not_eq_true] at he
      have hst := receive_state C ch hinv imm he
      have hrq := receive_queued C ch hinv imm he
      rw [hst] at hres
      simp only [ReceiveResult.received.injEq] at hres
      rw [hq, hres] at hrq
      cases buffered with
      | nil => simp at hrq
      | cons x xs =>
        simp only [List.map_cons, List.cons.injEq] at hrq
        rw [← hrq.1]
        simp
  · intro i hi
    rw [hlen]
    constructor
    · intro hne
      by_contra hcon
      apply hne
      apply hslots.2 i (by rw [hinv.size_eq]; exact hi)
      intro j hj e
      exact hcon ⟨j, hj, e⟩
    · rintro ⟨j, hj, e⟩
      rw [← e]
      exact hslots.1 j hj
  · intro calls hfree
    have hcalls : calls = (List.range ch.size).filterMap fun i =>
        (ch.args.getD i none).map StorageCall.free := by
      by_cases hz : int_wrap (ch.refcount - 1) = 0
      · simp only [channel_free, THAtomicDecrementRef, hz, beq_self_eq_true, if_true,
          FreeResult.torndown.injEq] at hfree
        exact hfree.symm
      · simp [channel_free, THAtomicDecrementRef, hz] at hfree
    rw [hcalls]
    refine (free_calls_perm C ch hinv hslots).trans ?_
    rw [hq, List.filterMap_map]
    have : (fun q : Option Storage => q.map StorageCall.free) ∘ some
        = some ∘ StorageCall.free := by
      funext x
      rfl
    rw [this, List.filterMap_eq_map]

theorem C17_payload_references_witness :
    channel_new ((2 : Nat) : Int) Alloc.ok
        = .ok ⟨[none, none], 0, 0, 2, true, false, false, 1⟩ ∧
      (run ⟨[none, none], 0, 0, 2, true, false, false, 1⟩
          [.send 4 false, .send 5 false, .receive false, .send 6 true]).2
        = some ⟨[some 6, some 5], 1, 1, 2, false, true, false, 1⟩ ∧
      channel_free ⟨[some 6, some 5], 1, 1, 2, false, true, false, 1⟩
        = .torndown [.free 6, .free 5] ∧
      [StorageCall.free 6, StorageCall.free 5].Perm
        (((sentPayloads (run ⟨[none, none], 0, 0, 2, true, false, false, 1⟩
            [.send 4 false, .send 5 false, .receive false, .send 6 true]).1).drop
          (receivedPayloads (run ⟨[none, none], 0, 0, 2, true, false, false, 1⟩
            [.send 4 false, .send 5 false, .receive false, .send 6 true]).1).length).map
          StorageCall.free) :=
  ⟨rfl, by decide, by decide,
   (C17_payload_references 2 Alloc.ok ⟨[none, none], 0, 0, 2, true, false, false, 1⟩
      (by decide) (by decide) rfl
      [.send 4 false, .send 5 false, .receive false, .send 6 true]
      ⟨[some 6, some 5], 1, 1, 2, false, true, false, 1⟩ (by decide)).2.2.2.2.2
      [.free 6, .free 5] (by decide)⟩

/-- C18: failure is atomic.  Whenever send returns false or fails with the
closed error, and whenever receive returns `(nil, false)`, the state after the
call is exactly the state before it (args, head, tail, size, isempty, isfull,
isclosed, refcount) and no call was made on a payload: the payload passed to
send has not been retained. -/
theorem C18_failure_atomic (ch : THChannel) (storage : Storage) (immediate : Bool) :
    ((channel_send ch storage immediate).result = .pushed false ∨
        (channel_send ch storage immediate).result = .closed →
      (channel_send ch storage immediate).channel = ch ∧
      (channel_send ch storage immediate).calls = []) ∧
    ((channel_receive ch immediate).result = .none_false →
      (channel_receive ch immediate).channel = ch ∧
      (channel_receive ch immediate).calls = []) := by
  constructor
  · cases hf : ch.isfull <;> cases hc : ch.isclosed <;> cases immediate <;>
      simp [channel_send, hf, hc]
  · cases he : ch.isempty <;> cases hc : ch.isclosed <;> cases immediate <;>
      simp [channel_receive, he, hc]

theorem C18_failure_atomic_witness :
    (channel_send ⟨[some 3, some 4], 0, 0, 2, false, true, false, 1⟩ 9 true).result
        = .pushed false ∧
      (channel_send ⟨[some 3, some 4], 0, 0, 2, false, true, false, 1⟩ 9 true).channel
        = ⟨[some 3, some 4], 0, 0, 2, false, true, false, 1⟩ ∧
      (channel_send ⟨[some 3, some 4], 0, 0, 2, false, true, false, 1⟩ 9 true).calls = [] ∧
      (channel_receive ⟨[none, none], 1, 1, 2, true, false, true, 1⟩ false).result
        = .none_false ∧
      (channel_receive ⟨[none, none], 1, 1, 2, true, false, true, 1⟩ false).channel
        = ⟨[none, none], 1, 1, 2, true, false, true, 1⟩ :=
  ⟨by decide,
   ((C18_failure_atomic ⟨[some 3, some 4], 0, 0, 2, false, true, false, 1⟩ 9 true).1
      (Or.inl (by decide))).1,
   ((C18_failure_atomic ⟨[some 3, some 4], 0, 0, 2, false, true, false, 1⟩ 9 true).1
      (Or.inl (by decide))).2,
   by decide,
   ((C18_failure_atomic ⟨[none, none], 1, 1, 2, true, false, true, 1⟩ 9 false).2
      (by decide)).1⟩

end Channel
